import Mathlib

/-!
# SkillFlow MCP server — verification of the core against its specification

A shallow embedding, in Lean 4, of the parts of the `skillflow` Python package
that the specification's quantified claims are about:

* `src/skillflow/tool_naming.py` — proxy tool-name generation and parsing;
* `src/skillflow/skill_cache.py` — the TTL + mtime skill cache;
* `src/skillflow/storage.py`     — the skill index, meta files, delete;
* `src/skillflow/recording.py`   — session log appends;
* `src/skillflow/skills.py`      — skill update (new version);
* `src/skillflow/engine.py`      — the DAG execution engine (statuses,
  aggregation, error strategies, loops).

Modelling conventions, used throughout:

* Python `dict[str, V]` becomes an insertion-ordered association list
  `List (String × V)` with `dictSet` (overwrite-or-append, exactly a CPython
  dict update) and `List.lookup`; `dict.values()` becomes `List.map Prod.snd`.
* Python `Any` (opaque JSON-ish payloads that no modelled code path inspects)
  becomes a type parameter `α`; theorems quantify over it.
* `datetime` values and `time.time()` / `st_mtime` floats become `Int`
  timestamps: the code only ever compares them and subtracts them.
* Async methods are pure state-passing functions: every modelled operation is
  serialised by a lock in the source (`_skill_lock`, `_index_lock`, the
  per-session locks), so one interleaving-free state transformer per call is
  faithful.
* Fallible Python operations are modelled in `Except String`; an exception
  propagating out of a `try` block is an `.error`.
-/

namespace SkillFlow

/-- CPython `d[k] = v` on an insertion-ordered dict rendered as an association
list: overwrite the first (unique) occurrence of the key in place, else append
at the end. -/
def dictSet {κ β : Type} [DecidableEq κ] : List (κ × β) → κ → β → List (κ × β)
  | [], k, v => [(k, v)]
  | (k', v') :: rest, k, v =>
      if k' = k then (k, v) :: rest else (k', v') :: dictSet rest k v

/-- Python `d.pop(k, None)` / `del d[k]` when the key's occurrence is unique:
drop the first binding of `k`. -/
def dictRemove {κ β : Type} [DecidableEq κ] : List (κ × β) → κ → List (κ × β)
  | [], _ => []
  | (k', v') :: rest, k =>
      if k' = k then rest else (k', v') :: dictRemove rest k

/-- Python `d.get(k)` / `d[k]`-with-presence-check: first binding of the key,
`none` when absent. -/
def dictLookup {κ β : Type} [DecidableEq κ] : List (κ × β) → κ → Option β
  | [], _ => none
  | (k', v) :: rest, k => if k = k' then some v else dictLookup rest k

/-- Python `d.get(k, default)`. -/
def dictGetD {κ β : Type} [DecidableEq κ] (d : List (κ × β)) (k : κ) (dflt : β) : β :=
  (dictLookup d k).getD dflt

theorem dictLookup_dictSet {κ β : Type} [DecidableEq κ] (d : List (κ × β)) (k k' : κ) (v : β) :
    dictLookup (dictSet d k v) k' = if k' = k then some v else dictLookup d k' := by
  induction d with
  | nil => simp [dictSet, dictLookup]
  | cons hd tl ih =>
      obtain ⟨k₀, v₀⟩ := hd
      by_cases h₀ : k₀ = k
      · subst h₀
        by_cases h₁ : k' = k₀ <;> simp [dictSet, dictLookup, h₁]
      · by_cases h₁ : k' = k₀
        · subst h₁
          simp [dictSet, dictLookup, h₀, Ne.symm h₀]
        · simp [dictSet, dictLookup, h₀, h₁, ih]

theorem dictLookup_eq_none_of_not_mem_keys {κ β : Type} [DecidableEq κ]
    (d : List (κ × β)) (k : κ)
    (h : k ∉ d.map Prod.fst) : dictLookup d k = none := by
  induction d with
  | nil => rfl
  | cons hd tl ih =>
      obtain ⟨k₀, v₀⟩ := hd
      simp only [List.map_cons, List.mem_cons, not_or] at h
      simp [dictLookup, h.1, ih h.2]

theorem dictLookup_eq_none_iff {κ β : Type} [DecidableEq κ] (d : List (κ × β)) (k : κ) :
    dictLookup d k = none ↔ k ∉ d.map Prod.fst := by
  induction d with
  | nil => simp [dictLookup]
  | cons hd tl ih =>
      obtain ⟨k₀, v₀⟩ := hd
      by_cases h : k = k₀
      · subst h
        simp [dictLookup]
      · simp [dictLookup, h, ih]

theorem dictRemove_of_not_mem_keys {κ β : Type} [DecidableEq κ] (d : List (κ × β)) (k : κ)
    (h : k ∉ d.map Prod.fst) : dictRemove d k = d := by
  induction d with
  | nil => rfl
  | cons hd tl ih =>
      obtain ⟨k₀, v₀⟩ := hd
      simp only [List.map_cons, List.mem_cons, not_or] at h
      simp [dictRemove, Ne.symm h.1, ih h.2]

theorem dictLookup_dictRemove {κ β : Type} [DecidableEq κ] (d : List (κ × β)) (k k' : κ)
    (hnd : (d.map Prod.fst).Nodup) :
    dictLookup (dictRemove d k) k' = if k' = k then none else dictLookup d k' := by
  induction d with
  | nil => simp [dictRemove, dictLookup]
  | cons hd tl ih =>
      obtain ⟨k₀, v₀⟩ := hd
      simp only [List.map_cons, List.nodup_cons] at hnd
      by_cases h₀ : k₀ = k
      · subst h₀
        by_cases h₁ : k' = k₀
        · subst h₁
          simp [dictRemove, dictLookup_eq_none_of_not_mem_keys tl k' hnd.1]
        · simp [dictRemove, dictLookup, h₁]
      · by_cases h₁ : k' = k₀
        · subst h₁
          simp [dictRemove, dictLookup, h₀, Ne.symm h₀]
        · simp [dictRemove, dictLookup, h₀, h₁, ih hnd.2]

theorem keys_dictRemove_subset {κ β : Type} [DecidableEq κ] (d : List (κ × β)) (k k' : κ)
    (h : k' ∈ (dictRemove d k).map Prod.fst) : k' ∈ d.map Prod.fst := by
  induction d with
  | nil => simp [dictRemove] at h
  | cons hd tl ih =>
      obtain ⟨k₀, v₀⟩ := hd
      by_cases h₀ : k₀ = k
      · subst h₀
        have hrw : dictRemove ((k₀, v₀) :: tl) k₀ = tl := by simp [dictRemove]
        rw [hrw] at h
        simp only [List.map_cons, List.mem_cons]
        exact Or.inr h
      · simp only [dictRemove, if_neg h₀, List.map_cons, List.mem_cons] at h ⊢
        exact h.imp id ih

theorem not_mem_keys_dictRemove_self {κ β : Type} [DecidableEq κ] (d : List (κ × β)) (k : κ)
    (hnd : (d.map Prod.fst).Nodup) : k ∉ (dictRemove d k).map Prod.fst := by
  induction d with
  | nil => simp [dictRemove]
  | cons hd tl ih =>
      obtain ⟨k₀, v₀⟩ := hd
      simp only [List.map_cons, List.nodup_cons] at hnd
      by_cases h₀ : k₀ = k
      · subst h₀
        simpa [dictRemove] using hnd.1
      · simp only [dictRemove, if_neg h₀, List.map_cons, List.mem_cons, not_or]
        exact ⟨fun h => h₀ h.symm, ih hnd.2⟩

theorem nodup_keys_dictRemove {κ β : Type} [DecidableEq κ] (d : List (κ × β)) (k : κ)
    (hnd : (d.map Prod.fst).Nodup) : ((dictRemove d k).map Prod.fst).Nodup := by
  induction d with
  | nil => simp [dictRemove]
  | cons hd tl ih =>
      obtain ⟨k₀, v₀⟩ := hd
      simp only [List.map_cons, List.nodup_cons] at hnd
      by_cases h₀ : k₀ = k
      · subst h₀
        simpa [dictRemove] using hnd.2
      · simp only [dictRemove, if_neg h₀, List.map_cons, List.nodup_cons]
        exact ⟨fun h => hnd.1 (keys_dictRemove_subset tl k k₀ h), ih hnd.2⟩

theorem dictRemove_dictRemove {κ β : Type} [DecidableEq κ] (d : List (κ × β)) (k : κ)
    (hnd : (d.map Prod.fst).Nodup) :
    dictRemove (dictRemove d k) k = dictRemove d k :=
  dictRemove_of_not_mem_keys _ _ (not_mem_keys_dictRemove_self d k hnd)

/-! ## Python string primitives

Strings are Lean `String`s (sequences of Unicode scalars, as in CPython);
`len` is `String.length`, slicing and membership go through `.data`. -/

/-- Python `s[:k]` for an `int` bound `k`: a negative bound counts from the
end and clamps at zero. -/
def pySliceTo (s : String) (k : Int) : String :=
  if 0 ≤ k then ⟨s.data.take k.toNat⟩
  else ⟨s.data.take (s.length - min s.length k.natAbs)⟩

/-- Python `s.startswith(p)`. -/
def pyStartsWith (p s : String) : Bool :=
  p.data.isPrefixOf s.data

/-- Python `s.split(sep, 1)` for a one-character separator, restricted to the
case the callers test for (`len(parts) == 2`): `some (before, after)` when the
separator occurs, splitting at its first occurrence; `none` when it does not. -/
def splitOnceChar (c : Char) : List Char → Option (List Char × List Char)
  | [] => none
  | a :: rest =>
      if a = c then some ([], rest)
      else match splitOnceChar c rest with
        | some (x, y) => some (a :: x, y)
        | none => none

end SkillFlow

namespace SkillFlow.ToolNaming

/-!
## `tool_naming.py` — proxy tool names (`ToolNamingStrategy`, default compact
format)

The SHA-256 hex digest of the server id (`hashlib.sha256(server_id.encode(
'utf-8')).hexdigest()`) enters the embedding as an explicit `digest : String`
argument: every property proved here holds for an arbitrary digest that has
the shape a SHA-256 hex digest always has (64 lowercase-hex characters,
`sha256HexShape` below), hence in particular for the real one. The compact
path never reads the digest.
-/

def PREFIX_COMPACT : String := "up_"

def PREFIX_LEGACY : String := "upstream__"

def SEPARATOR_COMPACT : String := "_"

def SEPARATOR_LEGACY : String := "__"

def MAX_TOTAL_LENGTH : Nat := 60

/-- The shape `hashlib.sha256(...).hexdigest()` always has: 64 characters,
each a lowercase hex digit. -/
def isHexLowerChar (c : Char) : Bool :=
  ('0' ≤ c && c ≤ '9') || ('a' ≤ c && c ≤ 'f')

def sha256HexShape (digest : String) : Prop :=
  digest.length = 64 ∧ ∀ c ∈ digest.data, isHexLowerChar c

/-- `ToolNamingStrategy._generate_legacy`. -/
def generate_legacy (server_id tool_name : String) : String :=
  PREFIX_LEGACY ++ server_id ++ SEPARATOR_LEGACY ++ tool_name

/-- `ToolNamingStrategy._generate_hash`: `up_<hash>_<tool-or-truncated>`,
with the tool name truncated to `..` form when it cannot fit beside the
4-character minimum hash, the hash prefix being 8, 6 or 4 digest characters
depending on the space left, and a final `result[:max_length]` safety clamp. -/
def generate_hash (digest : String) (tool_name : String) (max_length : Nat) : String :=
  let min_overhead : Int := (PREFIX_COMPACT.length : Int) + SEPARATOR_COMPACT.length + 4
  let max_tool_name_len : Int := (max_length : Int) - min_overhead
  let truncated_tool_name : String :=
    if (tool_name.length : Int) > max_tool_name_len then
      pySliceTo tool_name (max_tool_name_len - 2) ++ ".."
    else tool_name
  let available_for_hash : Int :=
    (max_length : Int) - PREFIX_COMPACT.length - SEPARATOR_COMPACT.length -
      truncated_tool_name.length
  let hash_str : String :=
    if available_for_hash ≥ 8 then ⟨digest.data.take 8⟩
    else if available_for_hash ≥ 6 then ⟨digest.data.take 6⟩
    else ⟨digest.data.take 4⟩
  let result := PREFIX_COMPACT ++ hash_str ++ SEPARATOR_COMPACT ++ truncated_tool_name
  if result.length > max_length then ⟨result.data.take max_length⟩ else result

/-- `ToolNamingStrategy._generate_compact`: try `up_<server_id>_<tool_name>`,
fall back to the hash format when it overflows the budget. -/
def generate_compact (digest server_id tool_name : String) (max_length : Nat) : String :=
  let compact_name := PREFIX_COMPACT ++ server_id ++ SEPARATOR_COMPACT ++ tool_name
  if compact_name.length ≤ max_length then compact_name
  else generate_hash digest tool_name max_length

/-- `max_length = max_length or self.MAX_TOTAL_LENGTH`: `None` and `0` are
falsy and select the default 60. -/
def effectiveMaxLength : Option Nat → Nat
  | none => MAX_TOTAL_LENGTH
  | some n => if n = 0 then MAX_TOTAL_LENGTH else n

/-- Module-level `generate_proxy_tool_name` on the default (compact) strategy. -/
def generate_proxy_tool_name (digest server_id tool_name : String)
    (max_length : Option Nat) : String :=
  generate_compact digest server_id tool_name (effectiveMaxLength max_length)

/-- `re.match(r'^[0-9a-f]{4,8}$', server_part)`: the whole string is 4 to 8
lowercase hex characters. -/
def looksLikeHash (s : String) : Bool :=
  4 ≤ s.length && s.length ≤ 8 && s.data.all isHexLowerChar

/-- Python `s.split("__", 1)` restricted to the two-part case the caller
tests for: split at the first occurrence of `"__"`. -/
def splitOnceDunder : List Char → Option (List Char × List Char)
  | '_' :: '_' :: rest => some ([], rest)
  | a :: rest =>
      match splitOnceDunder rest with
      | some (x, y) => some (a :: x, y)
      | none => none
  | [] => none

/-- `ToolNamingStrategy.parse_proxy_tool_name`, including the format tag the
method returns as its third component (`"compact"`, `"hash"` or `"legacy"`):
try the compact/hash shape first, then the legacy shape, else `None`. -/
def parse_proxy_tool_name3 (tool_name : String) :
    Option (String × String × String) :=
  let compact_attempt : Option (String × String × String) :=
    if pyStartsWith PREFIX_COMPACT tool_name then
      match splitOnceChar '_' (tool_name.data.drop PREFIX_COMPACT.length) with
      | some (server_part, tool_part) =>
          let format_type := if looksLikeHash ⟨server_part⟩ then "hash" else "compact"
          some (⟨server_part⟩, ⟨tool_part⟩, format_type)
      | none => none
    else none
  match compact_attempt with
  | some r => some r
  | none =>
      if pyStartsWith PREFIX_LEGACY tool_name then
        match splitOnceDunder (tool_name.data.drop PREFIX_LEGACY.length) with
        | some (a, b) => some (⟨a⟩, ⟨b⟩, "legacy")
        | none => none
      else none

/-- Module-level `parse_proxy_tool_name`: drops the format tag. -/
def parse_proxy_tool_name (tool_name : String) : Option (String × String) :=
  (parse_proxy_tool_name3 tool_name).map fun r => (r.1, r.2.1)

end SkillFlow.ToolNaming

namespace SkillFlow

/-!
## `schemas.py` — the data model

`dict[str, Any]` payloads that no modelled code path ever inspects
(`args`, `metadata`, JSON schemas, tool results) are rendered with a type
parameter `α`; all theorems hold for every `α`.
-/

/-- `ToolCallStatus`. -/
inductive ToolCallStatus : Type where
  | success
  | error
  | timeout
  | cancelled
  deriving DecidableEq, Repr

/-- `ToolCallLog`: one captured upstream call inside a recording session. -/
structure ToolCallLog (α : Type) : Type where
  index : Nat
  timestamp : Int
  server : String
  tool : String
  args : List (String × α)
  result_summary : List (String × α)
  error : Option String
  duration_ms : Int
  status : ToolCallStatus
  deriving DecidableEq, Repr

/-- `RecordingContext`. -/
structure RecordingContext (α : Type) : Type where
  client_id : String
  workspace_id : String := "default"
  metadata : List (String × α)
  deriving DecidableEq, Repr

/-- `RecordingSession`. -/
structure RecordingSession (α : Type) : Type where
  id : String
  started_at : Int
  ended_at : Option Int
  client_id : String
  workspace_id : String
  logs : List (ToolCallLog α)
  metadata : List (String × α)
  deriving DecidableEq, Repr

/-- `SkillAuthor`. -/
structure SkillAuthor (α : Type) : Type where
  workspace_id : String
  client_id : String
  metadata : List (String × α)
  deriving DecidableEq, Repr

/-- `NodeKind` as defined in `schemas.py` (the engine additionally tests for
`NodeKind.CONDITIONAL` / `NodeKind.LOOP`, members of an extended schema module
that is not part of the sources here; see the loop section below). -/
inductive NodeKind : Type where
  | tool_call
  | skill_call
  | control
  deriving DecidableEq, Repr

/-- `ErrorStrategy` (Lean reserves `continue`, hence `continue_`). -/
inductive ErrorStrategy : Type where
  | fail_fast
  | skip_dependents
  | retry
  | continue_
  deriving DecidableEq, Repr

/-- `RetryConfig`: declared by `schemas.py` with defaults
`max_retries = 3`, `backoff_ms = 1000`, `backoff_multiplier = 2.0`
(the float multiplier is modelled as a rational). -/
structure RetryConfig : Type where
  max_retries : Nat := 3
  backoff_ms : Nat := 1000
  backoff_multiplier : Rat := 2
  deriving DecidableEq, Repr

/-- `SkillNode`. -/
structure SkillNode (α : Type) : Type where
  id : String
  kind : NodeKind
  server : Option String
  tool : String
  args_template : List (String × α)
  export_outputs : List (String × String) := []
  depends_on : List String := []
  error_strategy : ErrorStrategy := .fail_fast
  retry_config : Option RetryConfig := none
  timeout_ms : Option Nat := none
  metadata : List (String × α) := []
  deriving DecidableEq, Repr

/-- `SkillEdge`. -/
structure SkillEdge : Type where
  from_node : String
  to_node : String
  condition : Option String := none
  deriving DecidableEq, Repr

/-- `ConcurrencyMode`. -/
inductive ConcurrencyMode : Type where
  | sequential
  | phased
  | full_parallel
  deriving DecidableEq, Repr

/-- `Concurrency`: the `phases` dict keeps insertion order; the engine sorts
its keys before iterating. -/
structure Concurrency : Type where
  mode : ConcurrencyMode := .sequential
  phases : List (String × List String) := []
  max_parallel : Option Nat := none
  deriving DecidableEq, Repr

/-- `SkillGraph`. -/
structure SkillGraph (α : Type) : Type where
  nodes : List (SkillNode α)
  edges : List SkillEdge := []
  concurrency : Concurrency := {}
  deriving DecidableEq, Repr

/-- `Skill`. -/
structure Skill (α : Type) : Type where
  id : String
  name : String
  version : Nat := 1
  description : String
  tags : List String := []
  created_at : Int
  updated_at : Int
  author : SkillAuthor α
  inputs_schema : α
  output_schema : α
  graph : SkillGraph α
  metadata : List (String × α) := []
  deriving DecidableEq, Repr

/-- `SkillMeta`: the lightweight listing form persisted as `meta.json`. -/
structure SkillMeta (α : Type) : Type where
  id : String
  name : String
  version : Nat
  description : String
  tags : List String
  created_at : Int
  updated_at : Int
  author : SkillAuthor α
  deriving DecidableEq, Repr

/-- `NodeStatus`. -/
inductive NodeStatus : Type where
  | pending
  | running
  | success
  | failed
  | skipped
  | cancelled
  deriving DecidableEq, Repr

/-- `RunStatus`. -/
inductive RunStatus : Type where
  | pending
  | running
  | success
  | partial_failure
  | failed
  | cancelled
  deriving DecidableEq, Repr

/-- A node status is terminal when it is one of
success / failed / skipped / cancelled (spec §3, §8.2). -/
def NodeStatus.isTerminal : NodeStatus → Bool
  | .success | .failed | .skipped | .cancelled => true
  | .pending | .running => false

end SkillFlow

namespace SkillFlow.SkillCacheM

open SkillFlow

/-!
## `skill_cache.py` — `SkillCache`

State per cache object: the `skill_id → SkillCacheEntry` dict, the single
tool-list entry, and the `_invalidations` counter (the only statistic a modelled
operation writes). `time.time()` and `st_mtime` are `Int`-valued; the
filesystem view enters `get_skill` as `fsMtime : Nat → Option Int`, giving for
a version number `v` the current mtime of `skill_dir / f"v{v:04d}.json"`, or
`none` when `version_path.exists()` is false.
-/

/-- `SkillCacheEntry`. -/
structure SkillCacheEntry (α : Type) : Type where
  skill : Skill α
  timestamp : Int
  file_mtime : Int
  deriving DecidableEq, Repr

/-- `ToolListCacheEntry` (tool dicts are opaque `α` values). -/
structure ToolListCacheEntry (α : Type) : Type where
  tools : List α
  timestamp : Int
  skill_ids : List String
  deriving DecidableEq, Repr

/-- The mutable state of one `SkillCache`. -/
structure SkillCacheState (α : Type) : Type where
  skill_cache : List (String × SkillCacheEntry α)
  tool_list_cache : Option (ToolListCacheEntry α)
  invalidations : Nat := 0
  deriving DecidableEq, Repr

/-- `SkillCache.get_skill` (`skill_cache.py` lines 73–111): miss on absent
entry; expired when `age >= ttl` (entry evicted); stale when the version file
exists with a different mtime (entry evicted); **the mtime comparison is
guarded by `version_path.exists()`** — a missing file skips the staleness
check and the entry is served as a hit. Returns the result and the updated
entry dict. -/
def get_skill {α : Type} (ttl_seconds : Int)
    (cache : List (String × SkillCacheEntry α)) (skill_id : String)
    (now : Int) (fsMtime : Nat → Option Int) :
    Option (Skill α) × List (String × SkillCacheEntry α) :=
  match dictLookup cache skill_id with
  | none => (none, cache)
  | some entry =>
      let age := now - entry.timestamp
      if age ≥ ttl_seconds then
        (none, dictRemove cache skill_id)
      else
        match fsMtime entry.skill.version with
        | some current_mtime =>
            if current_mtime ≠ entry.file_mtime then
              (none, dictRemove cache skill_id)
            else (some entry.skill, cache)
        | none => (some entry.skill, cache)

/-- `SkillCache.set_skill`: record the entry under `skill.id` with the current
file mtime (or `time.time()` when the file is absent), then invalidate the
tool-list cache. -/
def set_skill {α : Type} (st : SkillCacheState α) (skill : Skill α)
    (now : Int) (fsMtime : Nat → Option Int) : SkillCacheState α :=
  let file_mtime := (fsMtime skill.version).getD now
  let entry : SkillCacheEntry α :=
    { skill := skill, timestamp := now, file_mtime := file_mtime }
  { st with
      skill_cache := dictSet st.skill_cache skill.id entry
      tool_list_cache := none }

/-- `SkillCache.invalidate_skill`: drop the skill's entry when present
(counting an invalidation), then clear the tool-list cache when that skill
contributed to it. -/
def invalidate_skill {α : Type} (st : SkillCacheState α) (skill_id : String) :
    SkillCacheState α :=
  let (sc, inv) :=
    if (dictLookup st.skill_cache skill_id).isSome then
      (dictRemove st.skill_cache skill_id, st.invalidations + 1)
    else (st.skill_cache, st.invalidations)
  let tl :=
    match st.tool_list_cache with
    | some e => if skill_id ∈ e.skill_ids then none else some e
    | none => none
  { skill_cache := sc, tool_list_cache := tl, invalidations := inv }

end SkillFlow.SkillCacheM

namespace SkillFlow.Storage

open SkillFlow SkillFlow.SkillCacheM

/-!
## `storage.py` — `StorageLayer` (skills part)

State: the in-memory `_skill_index`, the on-disk `skills/` tree (per skill id
a directory holding `meta.json` and the `v<NNNN>.json` version files), and the
`SkillCache` (`enable_cache = True`, the constructor default). File writes are
atomic in the source (`_atomic_write_json`), so a write is a single state
update here. OS-level I/O failures (permissions, disk full) are outside the
model; the filesystem operations the code itself guards are modelled fallibly:
`shutil.rmtree` raises on a missing path, which `delete_skill` prevents with
an explicit `skill_dir.exists()` check. -/

/-- The on-disk directory `skills/<skill_id>/`. -/
structure SkillDirState (α : Type) : Type where
  meta : Option (SkillMeta α)
  versions : List (Nat × Skill α)
  deriving DecidableEq, Repr

/-- The parts of `StorageLayer` state that the skill operations touch. -/
structure StorageState (α : Type) : Type where
  skill_index : List (String × SkillMeta α)
  skills_dir : List (String × SkillDirState α)
  cache : SkillCacheState α
  deriving DecidableEq, Repr

/-- The `SkillMeta` that `save_skill` derives from a skill. -/
def skillMetaOf {α : Type} (skill : Skill α) : SkillMeta α :=
  { id := skill.id
    name := skill.name
    version := skill.version
    description := skill.description
    tags := skill.tags
    created_at := skill.created_at
    updated_at := skill.updated_at
    author := skill.author }

/-- `StorageLayer.save_skill` (`storage.py` lines 111–140): ensure the skill
directory, atomically write `v<NNNN>.json`, atomically write `meta.json`, and
update the in-memory index under the lock. -/
def save_skill {α : Type} (st : StorageState α) (skill : Skill α) : StorageState α :=
  let dir := dictGetD st.skills_dir skill.id ⟨none, []⟩
  let dir := { dir with versions := dictSet dir.versions skill.version skill }
  let meta := skillMetaOf skill
  let dir := { dir with meta := some meta }
  { st with
      skills_dir := dictSet st.skills_dir skill.id dir
      skill_index := dictSet st.skill_index skill.id meta }

/-- `shutil.rmtree(path)`: removes the directory tree, raising
`FileNotFoundError` when the path does not exist. -/
def py_rmtree {α : Type} (dirs : List (String × SkillDirState α)) (skill_id : String) :
    Except String (List (String × SkillDirState α)) :=
  if (dictLookup dirs skill_id).isSome then .ok (dictRemove dirs skill_id)
  else .error "FileNotFoundError"

/-- `StorageLayer.delete_skill` (`storage.py` lines 201–219): with
`hard = True`, remove the on-disk directory if it exists; always `pop` the
index entry (with default `None`) and invalidate the cache. The soft path
(`hard = False`) leaves the on-disk files in place. -/
def delete_skill {α : Type} (st : StorageState α) (skill_id : String) (hard : Bool) :
    Except String (StorageState α) :=
  let dirsE : Except String (List (String × SkillDirState α)) :=
    if hard then
      if (dictLookup st.skills_dir skill_id).isSome then py_rmtree st.skills_dir skill_id
      else .ok st.skills_dir
    else .ok st.skills_dir
  match dirsE with
  | .error e => .error e
  | .ok dirs =>
      .ok { skill_index := dictRemove st.skill_index skill_id
            skills_dir := dirs
            cache := invalidate_skill st.cache skill_id }

/-- The content of `skills/<skill_id>/meta.json`, when that file exists. -/
def metaOnDisk {α : Type} (st : StorageState α) (skill_id : String) :
    Option (SkillMeta α) :=
  (dictLookup st.skills_dir skill_id).bind (·.meta)

/-- Claim C6's agreement relation: a skill id is in the in-memory index with
metadata `m` iff `skills/<skill_id>/meta.json` exists on disk with content
`m`. -/
def Agree {α : Type} (st : StorageState α) : Prop :=
  ∀ (skill_id : String) (m : SkillMeta α),
    dictLookup st.skill_index skill_id = some m ↔ metaOnDisk st skill_id = some m

/-- Dict-key uniqueness of every dict in a storage state (the representation
invariant of a Python dict rendered as an association list). -/
def WFState {α : Type} (st : StorageState α) : Prop :=
  (st.skill_index.map Prod.fst).Nodup ∧
  (st.skills_dir.map Prod.fst).Nodup ∧
  (st.cache.skill_cache.map Prod.fst).Nodup

end SkillFlow.Storage

namespace SkillFlow.Recording

open SkillFlow

/-!
## `recording.py` — `RecordingManager`

`_active_sessions : dict[str, RecordingSession]`; the per-session lock
serialises the appends of `record_tool_call`, so each recorded call is one
state transformer applied in some total order. Session ids
(`session_<timestamp>_<uuid4-fragment>`) and `datetime.utcnow()` enter as
parameters. -/

/-- The state of one `RecordingManager` (the per-session locks carry no
data). -/
structure ManagerState (α : Type) : Type where
  active_sessions : List (String × RecordingSession α)
  deriving DecidableEq, Repr

/-- The in-memory session `start_session` builds (adding `metadata["name"]`
when a session name is given): `logs` starts empty. -/
def built_session {α : Type} (context : RecordingContext α)
    (session_name : Option α) (session_id : String) (now : Int) :
    RecordingSession α :=
  let session : RecordingSession α :=
    { id := session_id
      started_at := now
      ended_at := none
      client_id := context.client_id
      workspace_id := context.workspace_id
      logs := []
      metadata := context.metadata }
  match session_name with
  | some nm => { session with metadata := dictSet session.metadata "name" nm }
  | none => session

/-- `RecordingManager.start_session`: create the in-memory session and
register it under the fresh id. -/
def start_session {α : Type} (st : ManagerState α) (context : RecordingContext α)
    (session_name : Option α) (session_id : String) (now : Int) :
    ManagerState α × String :=
  ({ active_sessions :=
      dictSet st.active_sessions session_id (built_session context session_name session_id now) },
   session_id)

/-- The payload of one tap from the façade:
`(server, tool, args, result, error, duration_ms, status)`. -/
structure CallData (α : Type) : Type where
  server : String
  tool : String
  args : List (String × α)
  result : Option (List (String × α)) := none
  error : Option String := none
  duration_ms : Int := 0
  status : ToolCallStatus := .success
  deriving DecidableEq, Repr

/-- The `ToolCallLog` that `record_tool_call` appends: its `index` is
`len(session.logs) + 1`, computed under the session's lock. -/
def mkLog {α : Type} (session : RecordingSession α) (c : CallData α) (now : Int) :
    ToolCallLog α :=
  { index := session.logs.length + 1
    timestamp := now
    server := c.server
    tool := c.tool
    args := c.args
    result_summary := c.result.getD []
    error := c.error
    duration_ms := c.duration_ms
    status := c.status }

/-- `RecordingManager.record_tool_call` (`recording.py` lines 99–141): a no-op
when the session is not active, else append the new log entry under the
session's lock. -/
def record_tool_call {α : Type} (st : ManagerState α) (session_id : String)
    (c : CallData α) (now : Int) : ManagerState α :=
  match dictLookup st.active_sessions session_id with
  | none => st
  | some session =>
      let session' := { session with logs := session.logs ++ [mkLog session c now] }
      { active_sessions := dictSet st.active_sessions session_id session' }

end SkillFlow.Recording

namespace SkillFlow.Skills

open SkillFlow

/-!
## `skills.py` — `SkillManager.update_skill`

`update_skill` loads the current latest version through storage and builds the
next version; the loaded skill, the optional overrides and `datetime.utcnow()`
enter as parameters, and the constructed new `Skill` record (which the method
then persists via `save_skill` and returns) is the result. -/

/-- `SkillDraft`. -/
structure SkillDraft (α : Type) : Type where
  skill_id : String
  name : String
  description : String
  tags : List String := []
  graph : SkillGraph α
  inputs_schema : α
  output_schema : α
  source_session_id : String
  deriving DecidableEq, Repr

/-- `SkillManager.update_skill` (`skills.py` lines 135–178): the new version
record. Every field is either the override or carried from `current` — except
`metadata`, which is not passed at all, so the pydantic default (an empty
dict) applies. -/
def update_skill {α : Type} (skill_id : String) (current : Skill α)
    (name : Option String) (description : Option String)
    (tags : Option (List String)) (draft : Option (SkillDraft α))
    (now : Int) : Skill α :=
  { id := skill_id
    name := name.getD current.name
    version := current.version + 1
    description := description.getD current.description
    tags := tags.getD current.tags
    created_at := current.created_at
    updated_at := now
    author := current.author
    inputs_schema := (draft.map (·.inputs_schema)).getD current.inputs_schema
    output_schema := (draft.map (·.output_schema)).getD current.output_schema
    graph := (draft.map (·.graph)).getD current.graph
    metadata := [] }

end SkillFlow.Skills

namespace SkillFlow.Engine

open SkillFlow

/-!
## `engine.py` — `ExecutionEngine`

The embedding covers what the claims quantify over: node statuses, the error
strategies, the scheduling disciplines, executor invocations, and the loop
cap. Details that no claim inspects are abstracted:

* The whole `try` body of `_execute_node` — argument resolution, the optional
  parameter transform, dispatch by kind, output export — is an oracle
  `exec : SkillNode α → Nat → Except String Unit`: given the node and the
  number of executor invocations made so far in the run (`tool_executor` is an
  arbitrary, possibly stateful closure), it yields `.ok` when the body
  completes and `.error` when any step raises. Node outputs and the appended
  `NodeExecution` records are not tracked.
* The global semaphore only caps in-flight work and never changes which
  statuses are written; it is dropped.
* `context.cancelled` is a run-level constant here: the claims that use this
  model all hypothesise a run without cancellation.
* In `_execute_full_parallel`, `asyncio.wait(..., FIRST_COMPLETED)` makes the
  set of finished tasks per round schedule-dependent; the model fixes the
  deterministic schedule in which every launched task completes before the
  next readiness scan.
-/

/-- `context.node_statuses`. -/
abbrev StatusMap := List (String × NodeStatus)

/-- Scheduler-visible state: the status dict and the number of times the
tool-executor oracle has been invoked. -/
structure ExecState : Type where
  statuses : StatusMap
  calls : Nat
  deriving DecidableEq, Repr

/-- `for node in skill.graph.nodes: context.node_statuses[node.id] = PENDING`. -/
def init_statuses {α : Type} (nodes : List (SkillNode α)) : StatusMap :=
  nodes.foldl (fun st n => dictSet st n.id .pending) []

/-- `ExecutionEngine._can_execute_node`: every `depends_on` id has status
`SUCCESS` and every incoming edge's source has status `SUCCESS`
(a missing status, `dict.get -> None`, fails the comparison). -/
def can_execute_node {α : Type} (statuses : StatusMap) (node : SkillNode α)
    (graph : SkillGraph α) : Bool :=
  node.depends_on.all (fun dep => dictLookup statuses dep == some NodeStatus.success) &&
  graph.edges.all (fun e =>
    !(e.to_node == node.id) || (dictLookup statuses e.from_node == some NodeStatus.success))

/-- `ExecutionEngine._execute_node`, statuses-and-raise view: mark the node
`RUNNING`, run the try body (the oracle), then mark `SUCCESS`, or on an
exception mark `FAILED` and re-raise only under `ErrorStrategy.FAIL_FAST`.
**No branch consults `node.retry_config`: the `RETRY` strategy takes the same
path as `SKIP_DEPENDENTS` / `CONTINUE`.** The second component is true when
the exception propagates. -/
def execute_node {α : Type} (exec : SkillNode α → Nat → Except String Unit)
    (s : ExecState) (node : SkillNode α) : ExecState × Bool :=
  let running := dictSet s.statuses node.id .running
  match exec node s.calls with
  | .ok _ =>
      ({ statuses := dictSet running node.id .success, calls := s.calls + 1 }, false)
  | .error _ =>
      ({ statuses := dictSet running node.id .failed, calls := s.calls + 1 },
       node.error_strategy = .fail_fast)

/-! ### Topological sort (`_topological_sort`, Kahn's algorithm) -/

/-- The `in_degree` / `adj_list` tables of `_topological_sort`, including the
source's `if dep_id not in adj_list[dep_id]` membership test (sic — it checks
the dependency id against its own adjacency list, not the depending node). -/
def build_kahn_tables {α : Type} (graph : SkillGraph α) :
    List (String × Int) × List (String × List String) :=
  let inDeg : List (String × Int) := graph.nodes.foldl (fun d n => dictSet d n.id 0) []
  let step1 := graph.edges.foldl
    (fun (p : List (String × Int) × List (String × List String)) e =>
      (dictSet p.1 e.to_node (dictGetD p.1 e.to_node 0 + 1),
       dictSet p.2 e.from_node (dictGetD p.2 e.from_node [] ++ [e.to_node])))
    (inDeg, [])
  graph.nodes.foldl
    (fun (p : List (String × Int) × List (String × List String)) n =>
      n.depends_on.foldl
        (fun (q : List (String × Int) × List (String × List String)) dep =>
          if dep ∈ dictGetD q.2 dep [] then q
          else (dictSet q.1 n.id (dictGetD q.1 n.id 0 + 1),
                dictSet q.2 dep (dictGetD q.2 dep [] ++ [n.id])))
        p)
    step1

/-- The positive part of all tracked in-degrees. -/
def sumDeg (inDeg : List (String × Int)) : Nat :=
  (inDeg.map (fun p => p.2.toNat)).sum

/-- Fuel bound for the Kahn loop: every iteration pops one queue element, and
`queue.length + Σ max(in_degree, 0)` strictly decreases (enqueues happen only
when a positive in-degree reaches zero). -/
def kahn_measure (queue : List String) (inDeg : List (String × Int)) : Nat :=
  queue.length + sumDeg inDeg

/-- `while queue:` of Kahn's algorithm. A queue id with no entry in
`nodes_by_id` would be a `KeyError` in the source; it is skipped here, and the
theorems over this model carry the graph well-formedness hypothesis (every
edge endpoint and dependency id names a node) under which the case is
unreachable. -/
def kahn_loop {α : Type} (nodes_by_id : List (String × SkillNode α)) :
    Nat → List String → List (String × Int) → List (String × List String) →
    List (SkillNode α) → List (SkillNode α)
  | 0, _, _, _, result => result
  | _ + 1, [], _, _, result => result
  | fuel + 1, node_id :: queue, inDeg, adj, result =>
      let result' :=
        match dictLookup nodes_by_id node_id with
        | some n => result ++ [n]
        | none => result
      let step := (dictGetD adj node_id []).foldl
        (fun (p : List (String × Int) × List String) neighbor =>
          let v := dictGetD p.1 neighbor 0 - 1
          (dictSet p.1 neighbor v, if v = 0 then p.2 ++ [neighbor] else p.2))
        (inDeg, queue)
      kahn_loop nodes_by_id fuel step.2 step.1 adj result'

/-- `ExecutionEngine._topological_sort`. -/
def topological_sort {α : Type} (graph : SkillGraph α) : List (SkillNode α) :=
  let tables := build_kahn_tables graph
  let nodes_by_id := graph.nodes.foldl (fun m n => dictSet m n.id n) []
  let queue := (graph.nodes.filter (fun n => dictGetD tables.1 n.id 0 = 0)).map (·.id)
  kahn_loop nodes_by_id (kahn_measure queue tables.1 + 1) queue tables.1 tables.2 []

/-! ### The three scheduling disciplines -/

/-- The body of `_execute_sequential`'s loop over the topological order:
`break` on the cancellation flag, mark unready nodes `SKIPPED`, run ready
nodes, and let a `fail_fast` exception propagate (second component `true`). -/
def run_nodes_sequential {α : Type} (graph : SkillGraph α)
    (exec : SkillNode α → Nat → Except String Unit) (cancelled : Bool) :
    List (SkillNode α) → ExecState → ExecState × Bool
  | [], s => (s, false)
  | node :: rest, s =>
      if cancelled then (s, false)
      else if ¬ can_execute_node s.statuses node graph then
        run_nodes_sequential graph exec cancelled rest
          { s with statuses := dictSet s.statuses node.id .skipped }
      else
        match execute_node exec s node with
        | (s', true) => (s', true)
        | (s', false) => run_nodes_sequential graph exec cancelled rest s'

/-- `ExecutionEngine._execute_sequential`. -/
def run_sequential {α : Type} (graph : SkillGraph α)
    (exec : SkillNode α → Nat → Except String Unit) (cancelled : Bool)
    (s : ExecState) : ExecState × Bool :=
  run_nodes_sequential graph exec cancelled (topological_sort graph) s

/-- The readiness pass of one phase of `_execute_phased`: walk the phase's
nodes, collecting the ready ones as tasks and marking the rest `SKIPPED`. -/
def phase_mark {α : Type} (graph : SkillGraph α) :
    List (SkillNode α) → StatusMap → StatusMap × List (SkillNode α)
  | [], st => (st, [])
  | node :: rest, st =>
      if can_execute_node st node graph then
        let p := phase_mark graph rest st
        (p.1, node :: p.2)
      else
        phase_mark graph rest (dictSet st node.id .skipped)

/-- `asyncio.gather(*tasks, return_exceptions=True)`: run every collected
task; exceptions (including `fail_fast` re-raises) are captured by the gather
and never propagate. -/
def run_tasks {α : Type} (exec : SkillNode α → Nat → Except String Unit) :
    List (SkillNode α) → ExecState → ExecState
  | [], s => s
  | node :: rest, s => run_tasks exec rest (execute_node exec s node).1

/-- Lexicographic comparison of strings by Unicode code point — Python's
`sorted` order on `str`. -/
def charListLe : List Char → List Char → Bool
  | [], _ => true
  | _ :: _, [] => false
  | a :: as, b :: bs =>
      if a.val < b.val then true
      else if b.val < a.val then false
      else charListLe as bs

def strLe (a b : String) : Bool := charListLe a.data b.data

def insertSortedKey {β : Type} (p : String × β) :
    List (String × β) → List (String × β)
  | [] => [p]
  | q :: rest => if strLe p.1 q.1 then p :: q :: rest else q :: insertSortedKey p rest

/-- `sorted(phases.keys())`, carried with the per-key node lists (dict keys
are unique, so sorting the pairs by key and iterating equals iterating the
sorted keys and indexing the dict). -/
def sortByKey {β : Type} (l : List (String × β)) : List (String × β) :=
  l.foldr insertSortedKey []

/-- One phase of `_execute_phased`: select the graph nodes listed in the
phase, mark/collect, then gather the ready tasks. -/
def run_phase {α : Type} (graph : SkillGraph α)
    (exec : SkillNode α → Nat → Except String Unit)
    (s : ExecState) (node_ids : List String) : ExecState :=
  let nodes := graph.nodes.filter (fun n => n.id ∈ node_ids)
  let p := phase_mark graph nodes s.statuses
  run_tasks exec p.2 { s with statuses := p.1 }

/-- `ExecutionEngine._execute_phased`: iterate the phases in sorted key order
(`break` on cancellation); a graph node listed in no phase is never touched. -/
def run_phased {α : Type} (graph : SkillGraph α)
    (exec : SkillNode α → Nat → Except String Unit) (cancelled : Bool)
    (s : ExecState) : ExecState :=
  (sortByKey graph.concurrency.phases).foldl
    (fun s ph => if cancelled then s else run_phase graph exec s ph.2) s

/-- The `while pending or running` loop of `_execute_full_parallel` in the
schedule where each round's tasks all complete before the next scan: collect
the ready pending nodes, and when none is ready mark every pending node
`SKIPPED` and stop (the deadlock exit). One round removes at least one
pending node, so `pending.length` bounds the rounds. -/
def run_full_parallel_loop {α : Type} (graph : SkillGraph α)
    (exec : SkillNode α → Nat → Except String Unit) (cancelled : Bool) :
    Nat → List (SkillNode α) → ExecState → ExecState
  | 0, _, s => s
  | _ + 1, [], s => s
  | fuel + 1, p :: ps, s =>
      if cancelled then s
      else
        let ready := (p :: ps).filter (fun n => can_execute_node s.statuses n graph)
        if ready.isEmpty then
          { s with
              statuses := (p :: ps).foldl (fun st n => dictSet st n.id .skipped) s.statuses }
        else
          let remaining := (p :: ps).filter (fun n => ! can_execute_node s.statuses n graph)
          run_full_parallel_loop graph exec cancelled fuel remaining (run_tasks exec ready s)

/-- `ExecutionEngine._execute_full_parallel`. -/
def run_full_parallel {α : Type} (graph : SkillGraph α)
    (exec : SkillNode α → Nat → Except String Unit) (cancelled : Bool)
    (s : ExecState) : ExecState :=
  run_full_parallel_loop graph exec cancelled graph.nodes.length graph.nodes s

/-! ### `run_skill` -/

/-- The status aggregation of `run_skill` (`engine.py` lines 119–127):
`CANCELLED` on the flag; else `FAILED`/`PARTIAL_FAILURE` by the presence of
failed (and succeeded) nodes; **else `SUCCESS` — whatever the remaining
statuses are**. -/
def aggregate_status (cancelled : Bool) (statuses : StatusMap) : RunStatus :=
  if cancelled then .cancelled
  else if (statuses.map Prod.snd).any (· == NodeStatus.failed) then
    if (statuses.map Prod.snd).any (· == NodeStatus.success) then .partial_failure
    else .failed
  else .success

/-- The observable outcome of `run_skill`: the reported overall status, the
final `context.node_statuses`, and how often the tool executor ran. -/
structure RunOutcome : Type where
  status : RunStatus
  node_statuses : StatusMap
  executor_calls : Nat
  deriving DecidableEq, Repr

/-- `ExecutionEngine.run_skill` over a graph: initialise every node
`PENDING`, dispatch on the concurrency mode, and on an exception escaping
`_execute_graph` (only `fail_fast` in sequential mode produces one) report
`FAILED`; otherwise aggregate. -/
def run_skill {α : Type} (graph : SkillGraph α)
    (exec : SkillNode α → Nat → Except String Unit) (cancelled : Bool) : RunOutcome :=
  let s0 : ExecState := ⟨init_statuses graph.nodes, 0⟩
  let r : ExecState × Bool :=
    match graph.concurrency.mode with
    | .sequential => run_sequential graph exec cancelled s0
    | .phased => (run_phased graph exec cancelled s0, false)
    | .full_parallel => (run_full_parallel graph exec cancelled s0, false)
  let status := if r.2 then RunStatus.failed else aggregate_status cancelled r.1.statuses
  ⟨status, r.1.statuses, r.1.calls⟩

/-- Graph well-formedness (spec §3 invariants): every edge endpoint and every
`depends_on` entry resolves to a node of the graph, and node ids are unique. -/
def WFGraph {α : Type} (graph : SkillGraph α) : Prop :=
  (∀ e ∈ graph.edges, e.from_node ∈ graph.nodes.map SkillNode.id ∧
      e.to_node ∈ graph.nodes.map SkillNode.id) ∧
  (∀ n ∈ graph.nodes, ∀ dep ∈ n.depends_on, dep ∈ graph.nodes.map SkillNode.id) ∧
  (graph.nodes.map SkillNode.id).Nodup

instance {α : Type} (graph : SkillGraph α) : Decidable (WFGraph graph) := by
  unfold WFGraph; infer_instance

/-! ### The loop node (`_execute_loop`, `WHILE` branch) and the spec-side
reference models -/

/-- Modelled from the spec: `LoopConfig` — the loop-node payload
(`config.type`, `condition`, `body_nodes`, `max_iterations`, …) belongs to an
extended schema module that is not among the sources here; `schemas.py`
defines no loop types. Only the field the termination claim reads is kept:
`max_iterations`, a Python `int` whose value `0` (like an unset `None`) is
falsy in the guard `if config.max_iterations and ...`. -/
structure LoopConfig : Type where
  max_iterations : Nat
  deriving DecidableEq, Repr

/-- The `LoopType.WHILE` branch of `ExecutionEngine._execute_loop`
(`engine.py` lines 583–618), iteration-count view. Per pass:
`if config.max_iterations and iteration_count >= config.max_iterations:
break`, then re-evaluate the condition (an oracle of the iteration counter —
the evaluation context changes only through `loop_vars` and node outputs) and
`break` when falsy, else run the body and increment. `fuel` caps how many
passes the model unrolls: `some count` when the loop exits within `fuel`
passes with that final `iteration_count`, `none` when it is still running. -/
def while_loop_aux (max_iterations : Nat) (cond : Nat → Bool)
    (iteration_count : Nat) : Nat → Option Nat
  | 0 => none
  | fuel + 1 =>
      if max_iterations ≠ 0 ∧ iteration_count ≥ max_iterations then some iteration_count
      else if ¬ cond iteration_count then some iteration_count
      else while_loop_aux max_iterations cond (iteration_count + 1) fuel

/-- The whole `WHILE` loop, starting from `iteration_count = 0`. -/
def execute_loop_while (config : LoopConfig) (cond : Nat → Bool) (fuel : Nat) :
    Option Nat :=
  while_loop_aux config.max_iterations cond 0 fuel

/-- Modelled from the spec: the `retry` error strategy as §4.H specifies it —
"on failure, honour the retry config: up to `max_retries` attempts with delay
`backoff_ms × multiplier^(attempt)`; a successful retry clears the failure".
Returns the node's final status and the number of dispatch attempts made. -/
def spec_retry_aux (outcome : Nat → Except String Unit) :
    Nat → Nat → NodeStatus × Nat
  | attempt, remaining =>
      match outcome attempt with
      | .ok _ => (.success, attempt + 1)
      | .error _ =>
          match remaining with
          | 0 => (.failed, attempt + 1)
          | r + 1 => spec_retry_aux outcome (attempt + 1) r

def spec_retry_execute (config : RetryConfig)
    (outcome : Nat → Except String Unit) : NodeStatus × Nat :=
  spec_retry_aux outcome 0 config.max_retries

/-- Modelled from the spec: the delay before retry attempt `k`,
`backoff_ms × multiplier^(attempt)`. -/
def spec_retry_delay (config : RetryConfig) (attempt : Nat) : Rat :=
  (config.backoff_ms : Rat) * config.backoff_multiplier ^ attempt

/-- The overall-status rule in the spec's words (§4.H "Overall status
aggregation", the sentence claim C3 quotes): `success` iff every node is
success-or-skipped, else `partial_failure` iff some node succeeded alongside
failures, else `failed`. Kept separate from `aggregate_status` (the code's
rule) so the two can be compared. -/
def spec_aggregate_status (cancelled : Bool) (statuses : StatusMap) : RunStatus :=
  if cancelled then .cancelled
  else if (statuses.map Prod.snd).all
      (fun s => s == NodeStatus.success || s == NodeStatus.skipped) then .success
  else if (statuses.map Prod.snd).any (· == NodeStatus.success) &&
      (statuses.map Prod.snd).any (· == NodeStatus.failed) then .partial_failure
  else .failed

end SkillFlow.Engine

namespace SkillFlow

open SkillFlow.Storage SkillFlow.SkillCacheM SkillFlow.Recording SkillFlow.Skills
open SkillFlow.Engine SkillFlow.ToolNaming

/-! ## Shared concrete sample data (used by witnesses and counterexamples) -/

def sampleAuthor : SkillAuthor Int :=
  { workspace_id := "ws", client_id := "cli", metadata := [] }

def sampleGraph : SkillGraph Int :=
  { nodes := [], edges := [], concurrency := {} }

/-- A concrete stored skill whose current version carries non-empty metadata
(`source_session_id`, as `create_skill` records it). -/
def sampleSkill : Skill Int :=
  { id := "s1", name := "demo", version := 1, description := "d", tags := ["t"]
    created_at := 10, updated_at := 10, author := sampleAuthor
    inputs_schema := 0, output_schema := 0, graph := sampleGraph
    metadata := [("source_session_id", 7)] }

/-! ## Claim C9 — `update_skill` does not carry `metadata` over -/

/-- **C9.** For every existing skill whose current version carries a non-empty
metadata mapping, `update_skill` produces the new version with an empty
metadata mapping — metadata is not carried over — while `id`, `author` and
`created_at` are preserved (and the version increments). -/
theorem update_skill_drops_metadata {α : Type} (skill_id : String) (current : Skill α)
    (name : Option String) (description : Option String)
    (tags : Option (List String)) (draft : Option (SkillDraft α)) (now : Int)
    (hmeta : current.metadata ≠ []) :
    (update_skill skill_id current name description tags draft now).metadata = [] ∧
    (update_skill skill_id current name description tags draft now).id = skill_id ∧
    (update_skill skill_id current name description tags draft now).author = current.author ∧
    (update_skill skill_id current name description tags draft now).created_at
      = current.created_at ∧
    (update_skill skill_id current name description tags draft now).version
      = current.version + 1 := by
  refine ⟨rfl, rfl, rfl, rfl, rfl⟩

/-- Witness for C9 at a concrete skill whose metadata is non-empty. -/
theorem update_skill_drops_metadata_witness :
    sampleSkill.metadata ≠ [] ∧
    ((update_skill "s1" sampleSkill none none none none 99).metadata = [] ∧
     (update_skill "s1" sampleSkill none none none none 99).id = "s1" ∧
     (update_skill "s1" sampleSkill none none none none 99).author = sampleSkill.author ∧
     (update_skill "s1" sampleSkill none none none none 99).created_at
       = sampleSkill.created_at ∧
     (update_skill "s1" sampleSkill none none none none 99).version
       = sampleSkill.version + 1) :=
  ⟨by decide, update_skill_drops_metadata "s1" sampleSkill none none none none 99 (by decide)⟩

/-! ## Claim C7 — session log indices are exactly `1..N`, append-only -/

/-- Fold a list of `(payload, timestamp)` taps through `record_tool_call`. -/
def record_calls {α : Type} (st : ManagerState α) (session_id : String) :
    List (CallData α × Int) → ManagerState α
  | [] => st
  | c :: rest => record_calls (record_tool_call st session_id c.1 c.2) session_id rest

theorem record_calls_logs {α : Type} (session_id : String) :
    ∀ (payloads : List (CallData α × Int)) (st : ManagerState α)
      (session : RecordingSession α),
      dictLookup st.active_sessions session_id = some session →
      ∃ session' : RecordingSession α,
        dictLookup (record_calls st session_id payloads).active_sessions session_id
          = some session' ∧
        session'.logs.map ToolCallLog.index
          = session.logs.map ToolCallLog.index ++
            List.range' (session.logs.length + 1) payloads.length ∧
        ∃ tail, session'.logs = session.logs ++ tail := by
  intro payloads
  induction payloads with
  | nil =>
      intro st session h
      exact ⟨session, by simpa [record_calls] using h, by simp, [], by simp⟩
  | cons c rest ih =>
      intro st session h
      have hstep :
          dictLookup (record_tool_call st session_id c.1 c.2).active_sessions session_id
            = some { session with logs := session.logs ++ [mkLog session c.1 c.2] } := by
        simp only [record_tool_call, h]
        simp [dictLookup_dictSet]
      obtain ⟨session', h1, h2, tail, h3⟩ :=
        ih (record_tool_call st session_id c.1 c.2)
          { session with logs := session.logs ++ [mkLog session c.1 c.2] } hstep
      refine ⟨session', by simpa [record_calls] using h1, ?_, mkLog session c.1 c.2 :: tail, ?_⟩
      · rw [h2]
        have hr : List.range' (session.logs.length + 1) (rest.length + 1)
            = (session.logs.length + 1) :: List.range' (session.logs.length + 1 + 1) rest.length :=
          rfl
        simp only [List.map_append, List.length_append, List.map_cons, List.map_nil,
          List.length_cons, List.length_nil, hr, List.append_assoc, List.singleton_append,
          List.cons_append, List.nil_append, mkLog]
      · rw [h3]
        simp

/-- **C7.** For an active recording session: (a) starting a session and
applying `N` recorded calls (each append serialised by the session lock, hence
some total order) yields log entries whose `index` values are exactly
`1..N`; (b) each single `record_tool_call` on an active session only appends
one entry, with `index = len(logs) + 1` — no existing entry is modified or
removed. -/
theorem record_tool_call_indices {α : Type} (st0 : ManagerState α)
    (context : RecordingContext α) (session_name : Option α) (session_id : String)
    (now : Int) (payloads : List (CallData α × Int)) :
    (∃ session' : RecordingSession α,
      dictLookup (record_calls ((start_session st0 context session_name session_id now).1)
          session_id payloads).active_sessions session_id = some session' ∧
      session'.logs.map ToolCallLog.index = List.range' 1 payloads.length) ∧
    (∀ (st : ManagerState α) (session : RecordingSession α) (c : CallData α) (t : Int),
      dictLookup st.active_sessions session_id = some session →
      dictLookup (record_tool_call st session_id c t).active_sessions session_id
        = some { session with logs := session.logs ++ [mkLog session c t] } ∧
      (mkLog session c t).index = session.logs.length + 1) := by
  constructor
  · have hstart :
        dictLookup ((start_session st0 context session_name session_id now).1).active_sessions
          session_id = some (built_session context session_name session_id now) := by
      simp [start_session, dictLookup_dictSet]
    obtain ⟨session', h1, h2, tail, h3⟩ :=
      record_calls_logs session_id payloads _ _ hstart
    have hlogs : (built_session context session_name session_id now).logs = [] := by
      cases session_name <;> rfl
    refine ⟨session', h1, ?_⟩
    rw [h2, hlogs]
    simp
  · intro st session c t h
    refine ⟨?_, rfl⟩
    simp only [record_tool_call, h]
    simp [dictLookup_dictSet]

def sampleCall : CallData Int :=
  { server := "srv", tool := "t", args := [("x", 1)] }

/-- Witness for C7: two recorded calls on a fresh session yield indices
`[1, 2]`, and one further call on a concrete active session appends index 3. -/
theorem record_tool_call_indices_witness :
    (∃ session' : RecordingSession Int,
      dictLookup (record_calls
          ((start_session (⟨[]⟩ : ManagerState Int) ⟨"cli", "ws", []⟩ none "sess" 0).1)
          "sess" [(sampleCall, 1), (sampleCall, 2)]).active_sessions "sess"
        = some session' ∧
      session'.logs.map ToolCallLog.index = List.range' 1 2) ∧
    (∀ (st : ManagerState Int) (session : RecordingSession Int) (c : CallData Int) (t : Int),
      dictLookup st.active_sessions "sess" = some session →
      dictLookup (record_tool_call st "sess" c t).active_sessions "sess"
        = some { session with logs := session.logs ++ [mkLog session c t] } ∧
      (mkLog session c t).index = session.logs.length + 1) :=
  record_tool_call_indices (⟨[]⟩ : ManagerState Int) ⟨"cli", "ws", []⟩ none "sess" 0
    [(sampleCall, 1), (sampleCall, 2)]

/-! ## Claim C10 — `storage.delete_skill` never raises and is idempotent -/

theorem invalidate_skill_idem {α : Type} (c : SkillCacheState α) (skill_id : String)
    (hnd : (c.skill_cache.map Prod.fst).Nodup) :
    invalidate_skill (invalidate_skill c skill_id) skill_id
      = invalidate_skill c skill_id := by
  unfold invalidate_skill
  by_cases h : (dictLookup c.skill_cache skill_id).isSome
  · simp only [h, if_pos]
    have hnone : dictLookup (dictRemove c.skill_cache skill_id) skill_id = none := by
      rw [dictLookup_dictRemove _ _ _ hnd]
      simp
    simp only [hnone, Option.isSome_none, Bool.false_eq_true, if_neg, ite_false]
    rcases htl : c.tool_list_cache with _ | e
    · simp
    · by_cases hm : skill_id ∈ e.skill_ids <;> simp [hm]
  · simp only [h, if_neg, ite_false]
    rcases htl : c.tool_list_cache with _ | e
    · simp [h]
    · by_cases hm : skill_id ∈ e.skill_ids <;> simp [h, hm]

/-- `delete_skill` in normal form: it always succeeds, removing the directory
exactly when `hard` (a removal of an absent key is the identity). -/
theorem delete_skill_eq {α : Type} (st : StorageState α) (skill_id : String) (hard : Bool) :
    delete_skill st skill_id hard = .ok
      { skill_index := dictRemove st.skill_index skill_id
        skills_dir := if hard then dictRemove st.skills_dir skill_id else st.skills_dir
        cache := invalidate_skill st.cache skill_id } := by
  unfold delete_skill py_rmtree
  cases hard
  · simp
  · by_cases h : (dictLookup st.skills_dir skill_id).isSome
    · simp [h]
    · have hn : dictLookup st.skills_dir skill_id = none := by
        cases hd : dictLookup st.skills_dir skill_id
        · rfl
        · simp [hd] at h
      rw [dictRemove_of_not_mem_keys st.skills_dir skill_id
        ((dictLookup_eq_none_iff _ _).mp hn)]
      simp [h]

/-- **C10.** `storage.delete_skill(skill_id, hard)` never raises — for every
storage state, every id (present or not) and both flag values it returns
normally — and it is idempotent: the state after applying it twice is the
state after applying it once (index, on-disk tree and cache alike). -/
theorem delete_skill_total_idempotent {α : Type} (st : StorageState α)
    (skill_id : String) (hard : Bool) :
    (∃ st' : StorageState α, delete_skill st skill_id hard = .ok st') ∧
    (WFState st → ∀ st' : StorageState α, delete_skill st skill_id hard = .ok st' →
      delete_skill st' skill_id hard = .ok st') := by
  refine ⟨⟨_, delete_skill_eq st skill_id hard⟩, ?_⟩
  rintro ⟨hidx, hdirs, hcache⟩ st' h
  rw [delete_skill_eq] at h
  have hst' : st' =
      { skill_index := dictRemove st.skill_index skill_id
        skills_dir := if hard then dictRemove st.skills_dir skill_id else st.skills_dir
        cache := invalidate_skill st.cache skill_id } := by
    cases h
    rfl
  subst hst'
  rw [delete_skill_eq]
  have hidx2 : dictRemove (dictRemove st.skill_index skill_id) skill_id
      = dictRemove st.skill_index skill_id :=
    dictRemove_dictRemove st.skill_index skill_id hidx
  have hdirs2 :
      (if hard then
          dictRemove (if hard then dictRemove st.skills_dir skill_id else st.skills_dir)
            skill_id
        else (if hard then dictRemove st.skills_dir skill_id else st.skills_dir))
      = (if hard then dictRemove st.skills_dir skill_id else st.skills_dir) := by
    cases hard
    · simp
    · simp [dictRemove_dictRemove st.skills_dir skill_id hdirs]
  simp only [hidx2, hdirs2, invalidate_skill_idem st.cache skill_id hcache]

instance {α : Type} (st : StorageState α) : Decidable (WFState st) := by
  unfold Storage.WFState; infer_instance

/-- The empty storage state (a fresh data directory). -/
def emptyStorage : StorageState Int :=
  { skill_index := [], skills_dir := [], cache := { skill_cache := [], tool_list_cache := none } }

def sampleStorage : StorageState Int := save_skill emptyStorage sampleSkill

/-- Witness for C10 at a concrete populated storage state. -/
theorem delete_skill_total_idempotent_witness :
    WFState sampleStorage ∧
    (∀ st' : StorageState Int, delete_skill sampleStorage "s1" true = .ok st' →
      delete_skill st' "s1" true = .ok st') :=
  ⟨by decide, (delete_skill_total_idempotent sampleStorage "s1" true).2 (by decide)⟩

/-! ## Claim C5 — cache lookups, TTL, and mtime staleness -/

/-- A concrete cache entry for the stored `sampleSkill`, recorded at time 0
with file mtime 100. -/
def sampleEntry : SkillCacheEntry Int :=
  { skill := sampleSkill, timestamp := 0, file_mtime := 100 }

/-- **C5, counterexample.** With the version file **deleted from disk**
(`fsMtime ≡ none`, so there is no current mtime that could equal the recorded
one) and the entry fresh (`age = 10 < ttl = 300`), `get_skill` still returns
the cached skill: the staleness check is skipped when
`version_path.exists()` is false, so the lookup succeeds although the claim
requires it not to. -/
theorem cache_get_skill_counterexample :
    (SkillCacheM.get_skill 300 [("s1", sampleEntry)] "s1" 10 (fun _ => none)).1
      = some sampleSkill ∧
    (∀ m : Int, (fun _ : Nat => (none : Option Int)) sampleEntry.skill.version ≠ some m) := by
  constructor
  · decide
  · intro m
    simp

/-- **C5, amended.** A `get_skill` lookup succeeds only if (a) the entry's age
is strictly below the TTL and (b) **when the on-disk version file exists**,
its current mtime equals the recorded one (a missing file does not block the
hit); the returned skill is exactly the cached entry's skill, so whenever the
entry holds the value a cold disk load of the version file would produce, the
hit equals that cold load. -/
theorem cache_get_skill_amended {α : Type} (ttl : Int)
    (cache : List (String × SkillCacheEntry α)) (skill_id : String)
    (now : Int) (fsMtime : Nat → Option Int) (skill : Skill α)
    (h : (SkillCacheM.get_skill ttl cache skill_id now fsMtime).1 = some skill) :
    ∃ entry : SkillCacheEntry α,
      dictLookup cache skill_id = some entry ∧
      skill = entry.skill ∧
      now - entry.timestamp < ttl ∧
      (∀ m, fsMtime entry.skill.version = some m → m = entry.file_mtime) ∧
      (∀ disk : Nat → Option (Skill α),
        disk entry.skill.version = some entry.skill →
        (SkillCacheM.get_skill ttl cache skill_id now fsMtime).1
          = disk entry.skill.version) := by
  unfold SkillCacheM.get_skill at h ⊢
  cases hl : dictLookup cache skill_id with
  | none => rw [hl] at h; cases h
  | some entry =>
      rw [hl] at h
      by_cases hage : now - entry.timestamp ≥ ttl
      · simp [hage] at h
      · simp only [if_neg hage] at h
        have hskill : skill = entry.skill := by
          cases hm : fsMtime entry.skill.version with
          | none => simp [hm] at h; exact h.symm
          | some cur =>
              by_cases hne : cur ≠ entry.file_mtime
              · simp [hm, hne] at h
              · simp [hm, hne] at h; exact h.symm
        have hmt : ∀ m, fsMtime entry.skill.version = some m → m = entry.file_mtime := by
          intro m hm
          by_cases hne : m ≠ entry.file_mtime
          · simp [hm, hne] at h
          · omega
        refine ⟨entry, rfl, hskill, by omega, hmt, ?_⟩
        intro disk hdisk
        rw [hdisk]
        cases hm : fsMtime entry.skill.version with
        | none => simp [hage, hm]
        | some cur => simp [hage, hm, hmt cur hm]

/-- Witness for C5's amended claim: a fresh entry whose file exists with the
recorded mtime is served, equals the cached skill, and matches the cold
load. -/
theorem cache_get_skill_amended_witness :
    (SkillCacheM.get_skill 300 [("s1", sampleEntry)] "s1" 10 (fun _ => some 100)).1
      = some sampleSkill ∧
    ∃ entry : SkillCacheEntry Int,
      dictLookup [("s1", sampleEntry)] "s1" = some entry ∧
      sampleSkill = entry.skill ∧
      (10 : Int) - entry.timestamp < 300 ∧
      (∀ m, (fun _ : Nat => (some 100 : Option Int)) entry.skill.version = some m →
        m = entry.file_mtime) ∧
      (∀ disk : Nat → Option (Skill Int),
        disk entry.skill.version = some entry.skill →
        (SkillCacheM.get_skill 300 [("s1", sampleEntry)] "s1" 10 (fun _ => some 100)).1
          = disk entry.skill.version) :=
  ⟨by decide,
   cache_get_skill_amended 300 [("s1", sampleEntry)] "s1" 10 (fun _ => some 100)
     sampleSkill (by decide)⟩

/-! ## Claim C6 — in-memory index vs persisted `meta.json` agreement -/

/-- **C6, counterexample.** Save a skill into an empty store, then
`delete_skill(id, hard := False)`: the delete succeeds, the id is gone from
the in-memory index, yet `skills/s1/meta.json` still exists on disk with the
saved metadata — the two no longer agree, although the claim requires
agreement after every successful delete with `hard = false`. -/
theorem storage_agreement_counterexample :
    (Storage.delete_skill (save_skill emptyStorage sampleSkill) "s1" false).toOption.map
        (fun st => (dictLookup st.skill_index "s1", Storage.metaOnDisk st "s1"))
      = some (none, some (skillMetaOf sampleSkill)) ∧
    (none : Option (SkillMeta Int)) ≠ some (skillMetaOf sampleSkill) := by
  constructor
  · decide
  · decide

/-- **C6, amended.** When the index and the meta files agree, they still agree
after every successful `save_skill` and after every successful
`delete_skill(id, hard := true)`; after a successful **soft** delete
(`hard = false`) only the forward direction survives — the id is gone from
the index while its `meta.json` is left on disk unchanged, and every id still
in the index still matches its on-disk meta. -/
theorem storage_agreement_amended {α : Type} (st : StorageState α) (skill : Skill α)
    (skill_id : String) (hA : Agree st) (hWF : WFState st) :
    Agree (save_skill st skill) ∧
    (∀ st' : StorageState α, delete_skill st skill_id true = .ok st' → Agree st') ∧
    (∀ st' : StorageState α, delete_skill st skill_id false = .ok st' →
      dictLookup st'.skill_index skill_id = none ∧
      Storage.metaOnDisk st' skill_id = Storage.metaOnDisk st skill_id ∧
      (∀ id' m, dictLookup st'.skill_index id' = some m →
        Storage.metaOnDisk st' id' = some m)) := by
  obtain ⟨hidx, hdirs, -⟩ := hWF
  refine ⟨?_, ?_, ?_⟩
  · intro id' m
    unfold save_skill Storage.metaOnDisk
    simp only [dictLookup_dictSet]
    by_cases hid : id' = skill.id
    · simp [hid]
    · simp only [hid, if_false]
      exact hA id' m
  · intro st' h
    rw [delete_skill_eq] at h
    cases h
    intro id' m
    simp only [Storage.metaOnDisk, if_true,
      dictLookup_dictRemove st.skill_index skill_id id' hidx,
      dictLookup_dictRemove st.skills_dir skill_id id' hdirs]
    by_cases hid : id' = skill_id
    · simp [hid]
    · simp only [hid, if_false]
      exact hA id' m
  · intro st' h
    rw [delete_skill_eq] at h
    cases h
    refine ⟨?_, rfl, ?_⟩
    · simp [dictLookup_dictRemove st.skill_index skill_id skill_id hidx]
    · intro id' m hm
      rw [dictLookup_dictRemove st.skill_index skill_id id' hidx] at hm
      by_cases hid : id' = skill_id
      · rw [if_pos hid] at hm; cases hm
      · rw [if_neg hid] at hm
        exact (hA id' m).mp hm

def sampleMeta : SkillMeta Int := skillMetaOf sampleSkill

def sampleDir : SkillDirState Int :=
  { meta := some sampleMeta, versions := [(1, sampleSkill)] }

/-- A concrete storage state in which index and disk agree. -/
def agreedStorage : StorageState Int :=
  { skill_index := [("s1", sampleMeta)]
    skills_dir := [("s1", sampleDir)]
    cache := { skill_cache := [], tool_list_cache := none } }

theorem agreedStorage_agree : Agree agreedStorage := by
  intro id m
  by_cases h : id = "s1" <;>
    simp [Storage.metaOnDisk, agreedStorage, sampleDir, dictLookup, h]

/-- Witness for C6's amended claim at a concrete agreeing state. -/
theorem storage_agreement_amended_witness :
    Agree agreedStorage ∧ WFState agreedStorage ∧
    (Agree (save_skill agreedStorage sampleSkill) ∧
     (∀ st' : StorageState Int, delete_skill agreedStorage "s1" true = .ok st' → Agree st') ∧
     (∀ st' : StorageState Int, delete_skill agreedStorage "s1" false = .ok st' →
       dictLookup st'.skill_index "s1" = none ∧
       Storage.metaOnDisk st' "s1" = Storage.metaOnDisk agreedStorage "s1" ∧
       (∀ id' m, dictLookup st'.skill_index id' = some m →
         Storage.metaOnDisk st' id' = some m))) :=
  ⟨agreedStorage_agree, by decide,
   storage_agreement_amended agreedStorage sampleSkill "s1" agreedStorage_agree (by decide)⟩

/-! ## Claim C2 — proxy names: length budget and parse round-trip -/

theorem isPrefixOf_append_self (p r : List Char) : p.isPrefixOf (p ++ r) = true := by
  induction p with
  | nil => simp [List.isPrefixOf]
  | cons a as ih => simp [List.isPrefixOf, ih]

theorem splitOnceChar_append (c : Char) (s t : List Char) (hs : c ∉ s) :
    splitOnceChar c (s ++ c :: t) = some (s, t) := by
  induction s with
  | nil => simp [splitOnceChar]
  | cons a as ih =>
      simp only [List.mem_cons, not_or] at hs
      simp [splitOnceChar, Ne.symm hs.1, ih hs.2]

/-- Parsing a well-shaped compact name whose server part has no underscore
recovers both components verbatim. -/
theorem parse_compact_shape (server_part tool_part : String)
    (hs : '_' ∉ server_part.data) :
    parse_proxy_tool_name (PREFIX_COMPACT ++ server_part ++ SEPARATOR_COMPACT ++ tool_part)
      = some (server_part, tool_part) := by
  have hdata : (PREFIX_COMPACT ++ server_part ++ SEPARATOR_COMPACT ++ tool_part).data
      = ['u', 'p', '_'] ++ (server_part.data ++ '_' :: tool_part.data) := by
    simp [PREFIX_COMPACT, SEPARATOR_COMPACT, String.data_append]
  unfold parse_proxy_tool_name parse_proxy_tool_name3
  rw [show (PREFIX_COMPACT.length) = 3 from rfl]
  simp only [pyStartsWith, hdata]
  rw [show PREFIX_COMPACT.data = ['u', 'p', '_'] from rfl]
  rw [isPrefixOf_append_self ['u', 'p', '_'] (server_part.data ++ '_' :: tool_part.data)]
  simp only [if_true]
  rw [show List.drop 3 (['u', 'p', '_'] ++ (server_part.data ++ '_' :: tool_part.data))
      = server_part.data ++ '_' :: tool_part.data from
    List.drop_left ['u', 'p', '_'] _]
  rw [splitOnceChar_append '_' server_part.data tool_part.data hs]
  rfl

theorem isHexLowerChar_ne_underscore (c : Char) (h : isHexLowerChar c = true) :
    c ≠ '_' := by
  intro hc
  subst hc
  exact absurd h (by decide)

/-- `_generate_hash` when the tool name fits untruncated
(`len(tool) + 8 ≤ max_length`): the result is
`up_<digest-prefix>_<tool>` with an 8-, 6- or 4-character digest prefix, and
the final clamp never fires. -/
theorem generate_hash_no_trunc (digest tool_name : String) (max_length : Nat)
    (hd : digest.length = 64) (htool : tool_name.length + 8 ≤ max_length) :
    ∃ k, (k = 8 ∨ k = 6 ∨ k = 4) ∧
      generate_hash digest tool_name max_length
        = PREFIX_COMPACT ++ (⟨digest.data.take k⟩ : String) ++ SEPARATOR_COMPACT ++ tool_name := by
  unfold generate_hash
  have hlen : ∀ k : Nat, k ≤ 64 → ((⟨digest.data.take k⟩ : String)).length = k := by
    intro k hk
    show (digest.data.take k).length = k
    rw [List.length_take]
    have : digest.data.length = 64 := hd
    omega
  have hto : ¬ ((tool_name.length : Int) >
      (max_length : Int) - ((PREFIX_COMPACT.length : Int) + SEPARATOR_COMPACT.length + 4)) := by
    rw [show (PREFIX_COMPACT.length : Int) = 3 from rfl,
       show (SEPARATOR_COMPACT.length : Int) = 1 from rfl]
    omega
  simp only [if_neg hto]
  set avail : Int := (max_length : Int) - PREFIX_COMPACT.length - SEPARATOR_COMPACT.length -
      tool_name.length with havail
  have havail' : avail = (max_length : Int) - 4 - tool_name.length := by
    rw [havail, show (PREFIX_COMPACT.length : Int) = 3 from rfl,
       show (SEPARATOR_COMPACT.length : Int) = 1 from rfl]
    omega
  have hresult_len : ∀ k : Nat, k ≤ 64 →
      (PREFIX_COMPACT ++ (⟨digest.data.take k⟩ : String) ++ SEPARATOR_COMPACT ++ tool_name).length
        = 4 + k + tool_name.length := by
    intro k hk
    simp only [String.length_append, hlen k hk]
    rw [show PREFIX_COMPACT.length = 3 from rfl, show SEPARATOR_COMPACT.length = 1 from rfl]
    omega
  by_cases h8 : avail ≥ 8
  · refine ⟨8, Or.inl rfl, ?_⟩
    simp only [if_pos h8]
    rw [if_neg]
    rw [hresult_len 8 (by omega)]
    omega
  · by_cases h6 : avail ≥ 6
    · refine ⟨6, Or.inr (Or.inl rfl), ?_⟩
      simp only [if_neg h8, if_pos h6]
      rw [if_neg]
      rw [hresult_len 6 (by omega)]
      omega
    · refine ⟨4, Or.inr (Or.inr rfl), ?_⟩
      simp only [if_neg h8, if_neg h6]
      rw [if_neg]
      rw [hresult_len 4 (by omega)]
      omega

/-- `_generate_hash` never exceeds the budget: the final
`result[:max_length]` clamp guarantees it. -/
theorem clamp_length (s : String) (m : Nat) :
    (if s.length > m then (⟨s.data.take m⟩ : String) else s).length ≤ m := by
  split
  · show (s.data.take m).length ≤ m
    rw [List.length_take]
    omega
  · next h => omega

theorem generate_hash_length (digest tool_name : String) (max_length : Nat) :
    (generate_hash digest tool_name max_length).length ≤ max_length := by
  unfold generate_hash
  exact clamp_length _ _

/-- **C2, amended.** For every digest of SHA-256 shape, server id, tool name
and budget: (a) the generated proxy name never exceeds the *effective*
budget (`max_length or 60`, so a `0`/`None` budget means 60); (b) **provided
the server id contains no underscore** and, when the compact form overflows,
the tool name fits untruncated (`len(tool) + 8 ≤ budget`), parsing the
generated name returns exactly the original `(server_id, tool)` pair or the
digest-prefix hash alias (8, 6 or 4 hex characters) with the tool name
verbatim. -/
theorem tool_naming_round_trip_amended (digest server_id tool_name : String)
    (max_length : Option Nat) :
    (generate_proxy_tool_name digest server_id tool_name max_length).length
      ≤ effectiveMaxLength max_length ∧
    (sha256HexShape digest →
     '_' ∉ server_id.data →
     ((PREFIX_COMPACT ++ server_id ++ SEPARATOR_COMPACT ++ tool_name).length
        ≤ effectiveMaxLength max_length ∨
      tool_name.length + 8 ≤ effectiveMaxLength max_length) →
     parse_proxy_tool_name (generate_proxy_tool_name digest server_id tool_name max_length)
       = some (server_id, tool_name) ∨
     ∃ k, (k = 8 ∨ k = 6 ∨ k = 4) ∧
       parse_proxy_tool_name (generate_proxy_tool_name digest server_id tool_name max_length)
         = some ((⟨digest.data.take k⟩ : String), tool_name)) := by
  unfold generate_proxy_tool_name generate_compact
  by_cases hfit : (PREFIX_COMPACT ++ server_id ++ SEPARATOR_COMPACT ++ tool_name).length
      ≤ effectiveMaxLength max_length
  · rw [if_pos hfit]
    refine ⟨hfit, ?_⟩
    intro _ hs _
    exact Or.inl (parse_compact_shape server_id tool_name hs)
  · rw [if_neg hfit]
    refine ⟨generate_hash_length digest tool_name _, ?_⟩
    intro hshape hs hdisj
    have htool : tool_name.length + 8 ≤ effectiveMaxLength max_length := by
      rcases hdisj with h | h
      · exact absurd h hfit
      · exact h
    obtain ⟨k, hk, heq⟩ :=
      generate_hash_no_trunc digest tool_name (effectiveMaxLength max_length) hshape.1 htool
    right
    refine ⟨k, hk, ?_⟩
    rw [heq]
    refine parse_compact_shape (⟨digest.data.take k⟩ : String) tool_name ?_
    intro hmem
    have hmem' : '_' ∈ digest.data := List.mem_of_mem_take hmem
    exact isHexLowerChar_ne_underscore '_' (hshape.2 '_' hmem') rfl

/-- A fixed digest of SHA-256 shape (the compact path never reads it). -/
def zeroDigest : String := ⟨List.replicate 64 '0'⟩

/-- **C2, counterexample.** `server_id = "a_b"`, `tool = "t"`, budget 60: the
compact form `up_a_b_t` fits, but `parse_proxy_tool_name` splits at the
*first* underscore and returns `("a", "b_t")` — neither the original pair nor
any hash alias paired with the original tool name (the tool component is
`"b_t"`, not `"t"`). -/
theorem tool_naming_counterexample :
    generate_proxy_tool_name zeroDigest "a_b" "t" (some 60) = "up_a_b_t" ∧
    parse_proxy_tool_name "up_a_b_t" = some ("a", "b_t") ∧
    ("a", "b_t") ≠ (("a_b" : String), ("t" : String)) ∧
    ("b_t" : String) ≠ "t" := by
  refine ⟨by decide, by decide, by decide, by decide⟩

/-- Witness for C2's amended claim: a compact-path case and a hash-path case,
with every hypothesis discharged at the concrete inputs. -/
theorem tool_naming_round_trip_amended_witness :
    sha256HexShape zeroDigest ∧
    ((generate_proxy_tool_name zeroDigest "srv" "tool" (some 12)).length
        ≤ effectiveMaxLength (some 12) ∧
     (parse_proxy_tool_name (generate_proxy_tool_name zeroDigest "srv" "tool" (some 12))
         = some (("srv" : String), ("tool" : String)) ∨
      ∃ k, (k = 8 ∨ k = 6 ∨ k = 4) ∧
        parse_proxy_tool_name (generate_proxy_tool_name zeroDigest "srv" "tool" (some 12))
          = some ((⟨zeroDigest.data.take k⟩ : String), ("tool" : String)))) := by
  refine ⟨⟨by decide, by decide⟩, ?_, ?_⟩
  · exact (tool_naming_round_trip_amended zeroDigest "srv" "tool" (some 12)).1
  · exact (tool_naming_round_trip_amended zeroDigest "srv" "tool" (some 12)).2
      ⟨by decide, by decide⟩ (by decide) (Or.inl (by decide))

/-! ## Claim C1 — the `retry` error strategy -/

/-- A tool-call node with `error_strategy = retry` and an explicit retry
config (the `RetryConfig` defaults: 3 retries, 1000 ms, multiplier 2). -/
def retryNode : SkillNode Int :=
  { id := "n1", kind := .tool_call, server := some "srv", tool := "flaky"
    args_template := [], error_strategy := .retry, retry_config := some {} }

def retryGraph : SkillGraph Int := { nodes := [retryNode] }

/-- A tool executor that fails on its first invocation and succeeds on every
later one — a node that would succeed on the first retry attempt. -/
def flakyExec : SkillNode Int → Nat → Except String Unit :=
  fun _ calls => if calls = 0 then .error "boom" else .ok ()

/-- **C1.** At the failing input — a single `retry` node whose dispatch fails
once and would succeed on any retry — the engine invokes the executor exactly
**once**, marks the node `failed`, and reports the run `failed`: `_execute_node`
has no retry path (`retry_config` is never read). The spec-modelled retry
semantics (`spec_retry_execute`, §4.H) instead reaches `success` on the
second attempt, with the first back-off delay being
`backoff_ms × multiplier^0 = 1000`. -/
theorem retry_strategy_not_implemented :
    Engine.run_skill retryGraph flakyExec false
      = { status := .failed, node_statuses := [("n1", .failed)], executor_calls := 1 } ∧
    spec_retry_execute {} (fun attempt => if attempt = 0 then .error "boom" else .ok ())
      = (.success, 2) ∧
    spec_retry_delay {} 0 = 1000 := by
  refine ⟨by decide, by decide, ?_⟩
  show ((1000 : Nat) : Rat) * (2 : Rat) ^ (0 : Nat) = 1000
  norm_num

/-! ## Claim C3 — overall status aggregation -/

/-- A node listed in no phase of a phased-mode graph. -/
def unlistedNode : SkillNode Int :=
  { id := "a", kind := .tool_call, server := none, tool := "t", args_template := [] }

/-- A phased-mode graph whose phase mapping is empty: its single node is never
scheduled. -/
def uncoveredPhasedGraph : SkillGraph Int :=
  { nodes := [unlistedNode], edges := []
    concurrency := { mode := .phased, phases := [] } }

/-- An executor that always succeeds. -/
def okExec : SkillNode Int → Nat → Except String Unit := fun _ _ => .ok ()

/-- **C3, counterexample.** A phased run whose only node is listed in no phase
completes without cancellation with the node still `pending`; the code
reports `success` (no node failed), while the claim's formula — success only
when every node is success-or-skipped, else failed here — yields `failed`. -/
theorem run_skill_status_counterexample :
    (Engine.run_skill uncoveredPhasedGraph okExec false).status = .success ∧
    (Engine.run_skill uncoveredPhasedGraph okExec false).node_statuses
      = [("a", .pending)] ∧
    spec_aggregate_status false
      (Engine.run_skill uncoveredPhasedGraph okExec false).node_statuses = .failed ∧
    RunStatus.success ≠ RunStatus.failed := by
  refine ⟨by decide, by decide, by decide, by decide⟩

theorem mem_snd_dictSet {κ β : Type} [DecidableEq κ] (d : List (κ × β)) (k : κ) (v : β) :
    v ∈ (dictSet d k v).map Prod.snd := by
  induction d with
  | nil => simp [dictSet]
  | cons hd tl ih =>
      obtain ⟨k₀, v₀⟩ := hd
      by_cases h : k₀ = k
      · simp [dictSet, h]
      · simp only [dictSet, if_neg h, List.map_cons, List.mem_cons]
        exact Or.inr ih

/-- When the sequential scheduler re-raises (`fail_fast`), the node it just
marked gives the status map a `failed` entry. -/
theorem run_nodes_sequential_raised_failed {α : Type} (graph : SkillGraph α)
    (exec : SkillNode α → Nat → Except String Unit) (cancelled : Bool) :
    ∀ (nodes : List (SkillNode α)) (s : ExecState),
      (run_nodes_sequential graph exec cancelled nodes s).2 = true →
      ((run_nodes_sequential graph exec cancelled nodes s).1.statuses.map
        Prod.snd).any (· == NodeStatus.failed) = true := by
  intro nodes
  induction nodes with
  | nil => intro s h; exact absurd h (by simp [run_nodes_sequential])
  | cons node rest ih =>
      intro s h
      by_cases hc : cancelled = true
      · rw [run_nodes_sequential, if_pos hc] at h
        exact absurd h (by simp)
      · by_cases hr : can_execute_node s.statuses node graph = true
        · rw [run_nodes_sequential, if_neg hc, if_neg (not_not_intro hr)] at h ⊢
          revert h
          rcases hex : execute_node exec s node with ⟨s', raised⟩
          intro h
          cases raised
          · dsimp only at h ⊢
            exact ih s' h
          · unfold execute_node at hex
            cases ho : exec node s.calls with
            | ok u =>
                rw [ho] at hex
                dsimp only at hex
                injection hex with h1 h2
                exact absurd h2.symm (by simp)
            | error e =>
                rw [ho] at hex
                dsimp only at hex
                injection hex with h1 h2
                subst h1
                simp only [List.any_eq_true]
                exact ⟨.failed, mem_snd_dictSet _ _ _, by simp⟩
        · rw [run_nodes_sequential, if_neg hc, if_pos hr] at h ⊢
          exact ih _ h

/-- The code's aggregation, case-analysed (no cancellation): `success` iff no
node failed; with failures, `partial_failure` exactly when some node
succeeded. -/
theorem aggregate_status_cases (st : StatusMap) :
    (aggregate_status false st = .success ↔
      ¬ ((st.map Prod.snd).any (· == NodeStatus.failed) = true)) ∧
    (aggregate_status false st = .partial_failure →
      (st.map Prod.snd).any (· == NodeStatus.failed) = true ∧
      (st.map Prod.snd).any (· == NodeStatus.success) = true) ∧
    ((st.map Prod.snd).any (· == NodeStatus.failed) = true ∧
      ¬ ((st.map Prod.snd).any (· == NodeStatus.success) = true) →
      aggregate_status false st = .failed) ∧
    ((st.map Prod.snd).any (· == NodeStatus.failed) = true ∧
      (st.map Prod.snd).any (· == NodeStatus.success) = true →
      aggregate_status false st = .partial_failure) := by
  by_cases hF : (st.map Prod.snd).any (· == NodeStatus.failed) = true
  · by_cases hS : (st.map Prod.snd).any (· == NodeStatus.success) = true
    · simp [aggregate_status, hF, hS]
    · simp [aggregate_status, hF, hS]
  · simp [aggregate_status, hF]

/-- **C3, amended.** For every well-formed graph and every run of `run_skill`
without the cancellation flag: the overall status is `success` **iff no node
ended `failed`** (nodes left pending or running do not prevent `success`);
`partial_failure` implies some node failed and some succeeded; failures with
no success yield `failed`; and failures alongside successes yield
`partial_failure` — except that a `fail_fast` exception escaping the graph
reports `failed` even then. -/
theorem run_skill_status_amended {α : Type} (graph : SkillGraph α)
    (exec : SkillNode α → Nat → Except String Unit) (hWF : WFGraph graph) :
    ((Engine.run_skill graph exec false).status = .success ↔
      ¬ ((((Engine.run_skill graph exec false).node_statuses.map Prod.snd).any
          (· == NodeStatus.failed)) = true)) ∧
    ((Engine.run_skill graph exec false).status = .partial_failure →
      (((Engine.run_skill graph exec false).node_statuses.map Prod.snd).any
          (· == NodeStatus.failed)) = true ∧
      (((Engine.run_skill graph exec false).node_statuses.map Prod.snd).any
          (· == NodeStatus.success)) = true) ∧
    (((((Engine.run_skill graph exec false).node_statuses.map Prod.snd).any
          (· == NodeStatus.failed)) = true ∧
      ¬ ((((Engine.run_skill graph exec false).node_statuses.map Prod.snd).any
          (· == NodeStatus.success)) = true)) →
      (Engine.run_skill graph exec false).status = .failed) ∧
    (((((Engine.run_skill graph exec false).node_statuses.map Prod.snd).any
          (· == NodeStatus.failed)) = true ∧
      (((Engine.run_skill graph exec false).node_statuses.map Prod.snd).any
          (· == NodeStatus.success)) = true) →
      (Engine.run_skill graph exec false).status = .partial_failure ∨
      (Engine.run_skill graph exec false).status = .failed) := by
  unfold Engine.run_skill
  cases hmode : graph.concurrency.mode with
  | sequential =>
      dsimp only
      rcases hp : run_sequential graph exec false ⟨init_statuses graph.nodes, 0⟩
        with ⟨s, raised⟩
      cases raised
      · dsimp only
        simp only [if_neg Bool.false_ne_true]
        obtain ⟨c1, c2, c3, c4⟩ := aggregate_status_cases s.statuses
        exact ⟨c1, c2, c3, fun h => Or.inl (c4 h)⟩
      · dsimp only
        have hp' : run_nodes_sequential graph exec false (topological_sort graph)
            ⟨init_statuses graph.nodes, 0⟩ = (s, true) := hp
        have hF : ((s.statuses.map Prod.snd).any (· == NodeStatus.failed)) = true := by
          have h2 := run_nodes_sequential_raised_failed graph exec false
            (topological_sort graph) ⟨init_statuses graph.nodes, 0⟩ (by rw [hp'])
          rw [hp'] at h2
          exact h2
        refine ⟨by simp [hF], by simp, fun _ => rfl, fun _ => Or.inr rfl⟩
  | phased =>
      dsimp only
      simp only [if_neg Bool.false_ne_true]
      obtain ⟨c1, c2, c3, c4⟩ := aggregate_status_cases
        (run_phased graph exec false ⟨init_statuses graph.nodes, 0⟩).statuses
      exact ⟨c1, c2, c3, fun h => Or.inl (c4 h)⟩
  | full_parallel =>
      dsimp only
      simp only [if_neg Bool.false_ne_true]
      obtain ⟨c1, c2, c3, c4⟩ := aggregate_status_cases
        (run_full_parallel graph exec false ⟨init_statuses graph.nodes, 0⟩).statuses
      exact ⟨c1, c2, c3, fun h => Or.inl (c4 h)⟩

/-- A one-node sequential graph (for the C3 and C4 witnesses). -/
def soloNode : SkillNode Int :=
  { id := "n", kind := .tool_call, server := some "srv", tool := "t", args_template := [] }

def soloSeqGraph : SkillGraph Int := { nodes := [soloNode] }

/-- Witness for C3's amended claim on a concrete successful sequential run. -/
theorem run_skill_status_amended_witness :
    WFGraph soloSeqGraph ∧
    ((Engine.run_skill soloSeqGraph okExec false).status = .success ↔
      ¬ ((((Engine.run_skill soloSeqGraph okExec false).node_statuses.map Prod.snd).any
          (· == NodeStatus.failed)) = true)) :=
  ⟨by decide, (run_skill_status_amended soloSeqGraph okExec (by decide)).1⟩

/-! ## Claim C8 — loop termination under `max_iterations` -/

theorem while_loop_aux_zero_cap (fuel : Nat) :
    ∀ count, while_loop_aux 0 (fun _ => true) count fuel = none := by
  induction fuel with
  | zero => intro count; rfl
  | succ n ih =>
      intro count
      rw [while_loop_aux]
      simp only [ne_eq, not_true_eq_false, false_and, if_false, Bool.not_true,
        not_true, ite_false]
      simpa using ih (count + 1)

/-- **C8, counterexample.** With `max_iterations = 0` — a value the field can
take, and falsy in the guard `if config.max_iterations and ...` — a `while`
loop whose condition is always true never exits: however many passes the
model unrolls, the loop is still running, so no bound of `max_iterations`
iterations (or any other bound) holds. -/
theorem while_loop_cap_counterexample :
    ¬ ∃ (fuel count : Nat),
      execute_loop_while ⟨0⟩ (fun _ => true) fuel = some count := by
  rintro ⟨fuel, count, h⟩
  rw [execute_loop_while, while_loop_aux_zero_cap fuel 0] at h
  cases h

theorem while_loop_aux_exits (m : Nat) (cond : Nat → Bool) (hm : m ≠ 0) :
    ∀ (fuel count : Nat), count ≤ m → m + 1 ≤ count + fuel →
      ∃ r, while_loop_aux m cond count fuel = some r ∧ r ≤ m := by
  intro fuel
  induction fuel with
  | zero => intro count hcm h; omega
  | succ n ih =>
      intro count hcm h
      rw [while_loop_aux]
      by_cases hcap : m ≠ 0 ∧ count ≥ m
      · exact ⟨count, by rw [if_pos hcap], by omega⟩
      · rw [if_neg hcap]
        have hcount : count < m := by
          rcases Nat.lt_or_ge count m with h' | h'
          · exact h'
          · exact absurd ⟨hm, h'⟩ hcap
        by_cases hc : cond count = true
        · obtain ⟨r, hr, hrle⟩ := ih (count + 1) (by omega) (by omega)
          exact ⟨r, by simpa [hc] using hr, hrle⟩
        · refine ⟨count, ?_, by omega⟩
          simp [hc]

/-- **C8, amended.** Whenever `max_iterations` is positive (truthy), the
`while` loop exits after at most `max_iterations` iterations, whatever the
condition does — `max_iterations + 1` passes of the loop header always
suffice to reach the exit. When `max_iterations` is `0` (or unset), the cap
is disabled and an always-true condition loops forever. -/
theorem while_loop_cap_amended (m : Nat) (cond : Nat → Bool) (hm : 0 < m) :
    ∃ r, execute_loop_while ⟨m⟩ cond (m + 1) = some r ∧ r ≤ m := by
  obtain ⟨r, hr, hrle⟩ :=
    while_loop_aux_exits m cond (by omega) (m + 1) 0 (by omega) (by omega)
  exact ⟨r, hr, hrle⟩

/-- Witness for C8's amended claim: cap 3 with an always-true condition exits
with exactly 3 iterations. -/
theorem while_loop_cap_amended_witness :
    0 < 3 ∧ ∃ r, execute_loop_while ⟨3⟩ (fun _ => true) (3 + 1) = some r ∧ r ≤ 3 :=
  ⟨by decide, while_loop_cap_amended 3 (fun _ => true) (by decide)⟩

/-! ## Claim C4 — terminal statuses on success

Helper predicate and preservation lemmas: `TermAt st id` states that the
status dict assigns `id` a terminal status. -/

def TermAt (st : StatusMap) (id : String) : Prop :=
  ∃ v, dictLookup st id = some v ∧ v.isTerminal = true

theorem termAt_dictSet_self (st : StatusMap) (id : String) (v : NodeStatus)
    (hv : v.isTerminal = true) : TermAt (dictSet st id v) id :=
  ⟨v, by rw [dictLookup_dictSet]; simp, hv⟩

theorem termAt_dictSet_other (st : StatusMap) (id k : String) (v : NodeStatus)
    (hk : id ≠ k) (h : TermAt st id) : TermAt (dictSet st k v) id := by
  obtain ⟨w, hw, hwt⟩ := h
  exact ⟨w, by rw [dictLookup_dictSet, if_neg hk]; exact hw, hwt⟩

theorem termAt_dictSet_preserve (st : StatusMap) (id k : String) (v : NodeStatus)
    (hv : v.isTerminal = true) (h : TermAt st id) : TermAt (dictSet st k v) id := by
  by_cases hk : id = k
  · subst hk
    exact termAt_dictSet_self st id v hv
  · exact termAt_dictSet_other st id k v hk h

/-- `_execute_node` leaves its own node on a terminal status (`SUCCESS` or
`FAILED`) and preserves every terminal status. -/
theorem execute_node_term {α : Type} (exec : SkillNode α → Nat → Except String Unit)
    (s : ExecState) (node : SkillNode α) (id : String)
    (h : TermAt s.statuses id ∨ id = node.id) :
    TermAt (execute_node exec s node).1.statuses id := by
  unfold execute_node
  by_cases hid : id = node.id
  · subst hid
    cases ho : exec node s.calls with
    | ok u => exact termAt_dictSet_self _ _ _ rfl
    | error e => exact termAt_dictSet_self _ _ _ rfl
  · have hterm : TermAt s.statuses id := by
      rcases h with h | h
      · exact h
      · exact absurd h hid
    cases ho : exec node s.calls with
    | ok u =>
        exact termAt_dictSet_other _ _ _ _ hid (termAt_dictSet_other _ _ _ _ hid hterm)
    | error e =>
        exact termAt_dictSet_other _ _ _ _ hid (termAt_dictSet_other _ _ _ _ hid hterm)

/-- Gathered tasks leave each of their nodes terminal and preserve terminal
statuses. -/
theorem run_tasks_term {α : Type} (exec : SkillNode α → Nat → Except String Unit) :
    ∀ (tasks : List (SkillNode α)) (s : ExecState) (id : String),
      (TermAt s.statuses id ∨ id ∈ tasks.map SkillNode.id) →
      TermAt (run_tasks exec tasks s).statuses id := by
  intro tasks
  induction tasks with
  | nil =>
      intro s id h
      rcases h with h | h
      · exact h
      · simp at h
  | cons t rest ih =>
      intro s id h
      rw [run_tasks]
      refine ih (execute_node exec s t).1 id ?_
      rcases h with h | h
      · exact Or.inl (execute_node_term exec s t id (Or.inl h))
      · simp only [List.map_cons, List.mem_cons] at h
        rcases h with h | h
        · exact Or.inl (execute_node_term exec s t id (Or.inr h))
        · exact Or.inr h

/-- The readiness pass of a phase: preserves terminal statuses, and every
node of the phase either becomes a task or is already marked `SKIPPED`. -/
theorem phase_mark_term {α : Type} (graph : SkillGraph α) :
    ∀ (nodes : List (SkillNode α)) (st : StatusMap),
      (∀ id, TermAt st id → TermAt (phase_mark graph nodes st).1 id) ∧
      (∀ n ∈ nodes, n.id ∈ (phase_mark graph nodes st).2.map SkillNode.id ∨
        TermAt (phase_mark graph nodes st).1 n.id) := by
  intro nodes
  induction nodes with
  | nil => intro st; exact ⟨fun id h => h, by simp⟩
  | cons node rest ih =>
      intro st
      by_cases hr : can_execute_node st node graph = true
      · constructor
        · intro id h
          rw [phase_mark, if_pos hr]
          exact ((ih st).1 id h)
        · intro n hn
          rw [phase_mark, if_pos hr]
          simp only [List.map_cons, List.mem_cons] at hn ⊢
          rcases hn with hn | hn
          · exact Or.inl (Or.inl (by rw [hn]))
          · rcases (ih st).2 n hn with h | h
            · exact Or.inl (Or.inr h)
            · exact Or.inr h
      · have hskip := termAt_dictSet_self st node.id .skipped rfl
        constructor
        · intro id h
          rw [phase_mark, if_neg hr]
          exact (ih (dictSet st node.id .skipped)).1 id
            (termAt_dictSet_preserve st id node.id .skipped rfl h)
        · intro n hn
          rw [phase_mark, if_neg hr]
          simp only [List.mem_cons] at hn
          rcases hn with hn | hn
          · subst hn
            exact Or.inr ((ih (dictSet st n.id .skipped)).1 n.id hskip)
          · exact (ih (dictSet st node.id .skipped)).2 n hn

/-- One phase of `_execute_phased`: every graph node listed in the phase ends
terminal; terminal statuses are preserved. -/
theorem run_phase_term {α : Type} (graph : SkillGraph α)
    (exec : SkillNode α → Nat → Except String Unit)
    (s : ExecState) (node_ids : List String) :
    (∀ id, TermAt s.statuses id → TermAt (run_phase graph exec s node_ids).statuses id) ∧
    (∀ n ∈ graph.nodes, n.id ∈ node_ids →
      TermAt (run_phase graph exec s node_ids).statuses n.id) := by
  unfold run_phase
  constructor
  · intro id h
    exact run_tasks_term exec _ _ id
      (Or.inl ((phase_mark_term graph _ s.statuses).1 id h))
  · intro n hn hin
    have hmem : n ∈ graph.nodes.filter (fun m => m.id ∈ node_ids) :=
      List.mem_filter.mpr ⟨hn, by simpa using hin⟩
    rcases (phase_mark_term graph _ s.statuses).2 n hmem with h | h
    · exact run_tasks_term exec _ _ n.id (Or.inr h)
    · exact run_tasks_term exec _ _ n.id (Or.inl h)

theorem mem_insertSortedKey {β : Type} (p q : String × β) (l : List (String × β)) :
    p ∈ insertSortedKey q l ↔ p = q ∨ p ∈ l := by
  induction l with
  | nil => simp [insertSortedKey]
  | cons hd tl ih =>
      by_cases h : strLe q.1 hd.1 = true
      · simp [insertSortedKey, h]
      · simp [insertSortedKey, h, ih]
        tauto

theorem mem_sortByKey {β : Type} (p : String × β) (l : List (String × β)) :
    p ∈ sortByKey l ↔ p ∈ l := by
  induction l with
  | nil => simp [sortByKey]
  | cons hd tl ih =>
      rw [sortByKey, List.foldr_cons]
      rw [show List.foldr insertSortedKey [] tl = sortByKey tl from rfl]
      rw [mem_insertSortedKey]
      simp [ih]

/-- The phased scheduler (no cancellation): every graph node listed in one of
the processed phases ends terminal. -/
theorem run_phased_fold_term {α : Type} (graph : SkillGraph α)
    (exec : SkillNode α → Nat → Except String Unit) :
    ∀ (phs : List (String × List String)) (s : ExecState),
      (∀ id, TermAt s.statuses id →
        TermAt ((phs.foldl (fun s ph => run_phase graph exec s ph.2) s)).statuses id) ∧
      (∀ n ∈ graph.nodes, (∃ ph ∈ phs, n.id ∈ ph.2) →
        TermAt ((phs.foldl (fun s ph => run_phase graph exec s ph.2) s)).statuses n.id) := by
  intro phs
  induction phs with
  | nil =>
      intro s
      exact ⟨fun id h => h, by simp⟩
  | cons ph rest ih =>
      intro s
      constructor
      · intro id h
        simp only [List.foldl_cons]
        exact (ih (run_phase graph exec s ph.2)).1 id ((run_phase_term graph exec s ph.2).1 id h)
      · intro n hn hph
        simp only [List.foldl_cons]
        simp only [List.mem_cons] at hph
        obtain ⟨ph', hph', hin⟩ := hph
        rcases hph' with hph' | hph'
        · subst hph'
          exact (ih (run_phase graph exec s ph'.2)).1 n.id
            ((run_phase_term graph exec s ph'.2).2 n hn hin)
        · exact (ih (run_phase graph exec s ph.2)).2 n hn ⟨ph', hph', hin⟩

/-- The deadlock exit of `_execute_full_parallel` marks everything still
pending `SKIPPED`. -/
theorem foldl_skip_term {α : Type} :
    ∀ (pending : List (SkillNode α)) (st : StatusMap) (id : String),
      (TermAt st id ∨ id ∈ pending.map SkillNode.id) →
      TermAt (pending.foldl (fun st n => dictSet st n.id NodeStatus.skipped) st) id := by
  intro pending
  induction pending with
  | nil =>
      intro st id h
      rcases h with h | h
      · exact h
      · simp at h
  | cons p ps ih =>
      intro st id h
      simp only [List.foldl_cons]
      refine ih (dictSet st p.id .skipped) id ?_
      rcases h with h | h
      · exact Or.inl (termAt_dictSet_preserve st id p.id .skipped rfl h)
      · simp only [List.map_cons, List.mem_cons] at h
        rcases h with h | h
        · rw [h]
          exact Or.inl (termAt_dictSet_self st p.id .skipped rfl)
        · exact Or.inr h

theorem filter_length_split {β : Type} (p : β → Bool) :
    ∀ l : List β, (l.filter p).length + (l.filter (fun x => ! p x)).length = l.length := by
  intro l
  induction l with
  | nil => rfl
  | cons hd tl ih =>
      by_cases h : p hd = true <;> simp [List.filter_cons, h, ← ih] <;> omega

/-- The full-parallel scheduling loop (no cancellation), in the
all-tasks-complete-per-round schedule: with enough fuel, every node that
entered `pending` ends on a terminal status, and terminal statuses are
preserved. -/
theorem run_full_parallel_loop_term {α : Type} (graph : SkillGraph α)
    (exec : SkillNode α → Nat → Except String Unit) :
    ∀ (fuel : Nat) (pending : List (SkillNode α)) (s : ExecState),
      pending.length ≤ fuel →
      ∀ id, (TermAt s.statuses id ∨ id ∈ pending.map SkillNode.id) →
      TermAt (run_full_parallel_loop graph exec false fuel pending s).statuses id := by
  intro fuel
  induction fuel with
  | zero =>
      intro pending s hlen id h
      have hp : pending = [] := List.length_eq_zero.mp (Nat.le_zero.mp hlen)
      subst hp
      rcases h with h | h
      · exact h
      · simp at h
  | succ n ih =>
      intro pending s hlen id h
      cases pending with
      | nil =>
          rcases h with h | h
          · exact h
          · simp at h
      | cons p ps =>
          rw [run_full_parallel_loop]
          rw [if_neg Bool.false_ne_true]
          by_cases hready : ((p :: ps).filter
              (fun n => can_execute_node s.statuses n graph)).isEmpty = true
          · rw [if_pos hready]
            exact foldl_skip_term (p :: ps) s.statuses id h
          · rw [if_neg hready]
            have hsplit := filter_length_split
              (fun n => can_execute_node s.statuses n graph) (p :: ps)
            have hready_pos : 0 < ((p :: ps).filter
                (fun n => can_execute_node s.statuses n graph)).length := by
              cases hf : (p :: ps).filter (fun n => can_execute_node s.statuses n graph) with
              | nil => rw [hf] at hready; simp [List.isEmpty] at hready
              | cons a l => simp [hf]
            have hlen' : ((p :: ps).filter
                (fun n => ! can_execute_node s.statuses n graph)).length ≤ n := by
              have : (p :: ps).length ≤ n + 1 := hlen
              omega
            refine ih _ _ hlen' id ?_
            rcases h with h | h
            · exact Or.inl (run_tasks_term exec _ s id (Or.inl h))
            · obtain ⟨m, hm, hmid⟩ := List.mem_map.mp h
              by_cases hcan : can_execute_node s.statuses m graph = true
              · refine Or.inl (run_tasks_term exec _ s id (Or.inr ?_))
                exact List.mem_map.mpr ⟨m, List.mem_filter.mpr ⟨hm, hcan⟩, hmid⟩
              · refine Or.inr ?_
                exact List.mem_map.mpr
                  ⟨m, List.mem_filter.mpr ⟨hm, by simp [hcan]⟩, hmid⟩

/-- `_execute_full_parallel` (no cancellation): every node of the graph ends
on a terminal status, whatever the run's outcome. -/
theorem run_full_parallel_term {α : Type} (graph : SkillGraph α)
    (exec : SkillNode α → Nat → Except String Unit) (s : ExecState) :
    ∀ n ∈ graph.nodes, TermAt (run_full_parallel graph exec false s).statuses n.id := by
  intro n hn
  exact run_full_parallel_loop_term graph exec graph.nodes.length graph.nodes s
    (le_refl _) n.id (Or.inr (List.mem_map.mpr ⟨n, hn, rfl⟩))

/-- The sequential scheduler, when no `fail_fast` exception escapes: every
visited node ends terminal (executed or skipped); terminal statuses are
preserved. -/
theorem run_nodes_sequential_term {α : Type} (graph : SkillGraph α)
    (exec : SkillNode α → Nat → Except String Unit) :
    ∀ (nodes : List (SkillNode α)) (s : ExecState),
      (run_nodes_sequential graph exec false nodes s).2 = false →
      ∀ id, (TermAt s.statuses id ∨ id ∈ nodes.map SkillNode.id) →
      TermAt (run_nodes_sequential graph exec false nodes s).1.statuses id := by
  intro nodes
  induction nodes with
  | nil =>
      intro s hok id h
      rcases h with h | h
      · exact h
      · simp at h
  | cons node rest ih =>
      intro s hok id h
      rw [run_nodes_sequential, if_neg Bool.false_ne_true] at hok ⊢
      by_cases hr : can_execute_node s.statuses node graph = true
      · rw [if_neg (not_not_intro hr)] at hok ⊢
        revert hok
        rcases hex : execute_node exec s node with ⟨s', raised⟩
        intro hok
        cases raised
        · dsimp only at hok ⊢
          refine ih s' hok id ?_
          rcases h with h | h
          · exact Or.inl (execute_node_term exec s node id (Or.inl h) |>.imp
              (fun v hv => by rw [hex] at hv; exact hv))
          · simp only [List.map_cons, List.mem_cons] at h
            rcases h with h | h
            · refine Or.inl ?_
              have := execute_node_term exec s node id (Or.inr h)
              rw [hex] at this
              exact this
            · exact Or.inr h
        · simp at hok
      · rw [if_pos hr] at hok ⊢
        refine ih _ hok id ?_
        rcases h with h | h
        · exact Or.inl (termAt_dictSet_preserve s.statuses id node.id .skipped rfl h)
        · simp only [List.map_cons, List.mem_cons] at h
          rcases h with h | h
          · rw [h]
            exact Or.inl (termAt_dictSet_self s.statuses node.id .skipped rfl)
          · exact Or.inr h

/-! ### Completeness of `_topological_sort` on ranked (acyclic) graphs

Ghost accounting: `countIn adj v` is the total number of adjacency entries
pointing at `v`; `countFrom P adj v` those whose source is in the processed
list `P`. Through the loop, the tracked in-degree of `v` is exactly
`countIn - countFrom`. -/

def countOcc (v : String) : List String → Nat
  | [] => 0
  | a :: rest => (if a = v then 1 else 0) + countOcc v rest

theorem countOcc_append (v : String) (l₁ l₂ : List String) :
    countOcc v (l₁ ++ l₂) = countOcc v l₁ + countOcc v l₂ := by
  induction l₁ with
  | nil => simp [countOcc]
  | cons a rest ih => simp [countOcc, ih]; omega

theorem countOcc_pos_iff_mem (v : String) (l : List String) :
    0 < countOcc v l ↔ v ∈ l := by
  induction l with
  | nil => simp [countOcc]
  | cons a rest ih =>
      by_cases h : a = v
      · subst h
        simp [countOcc]
      · simp [countOcc, h, ih, Ne.symm h]

def countIn (adj : List (String × List String)) (v : String) : Nat :=
  (adj.map (fun p => countOcc v p.2)).sum

def countFrom (P : List String) (adj : List (String × List String)) (v : String) : Nat :=
  (P.map (fun u => countOcc v (dictGetD adj u []))).sum

theorem countFrom_append (P : List String) (adj : List (String × List String))
    (u v : String) :
    countFrom (P ++ [u]) adj v = countFrom P adj v + countOcc v (dictGetD adj u []) := by
  simp [countFrom]

theorem countIn_dictSet_append (adj : List (String × List String)) (u w v : String) :
    countIn (dictSet adj u (dictGetD adj u [] ++ [w])) v
      = countIn adj v + (if w = v then 1 else 0) := by
  induction adj with
  | nil => simp [countIn, dictSet, dictGetD, dictLookup, countOcc]
  | cons hd tl ih =>
      obtain ⟨k, l⟩ := hd
      by_cases hk : k = u
      · subst hk
        have hget : dictGetD ((k, l) :: tl) k [] = l := by
          simp [dictGetD, dictLookup]
        simp only [hget, dictSet, if_pos rfl, ite_true, countIn, List.map_cons,
          List.sum_cons, countOcc_append]
        simp [countOcc]
        omega
      · have hget : dictGetD ((k, l) :: tl) u [] = dictGetD tl u [] := by
          simp [dictGetD, dictLookup, Ne.symm hk]
        simp only [hget, dictSet, if_neg hk, countIn, List.map_cons, List.sum_cons]
        have htl := ih
        unfold countIn at htl
        omega

theorem dictGetD_dictSet {κ β : Type} [DecidableEq κ] (d : List (κ × β)) (k k' : κ)
    (v dflt : β) :
    dictGetD (dictSet d k v) k' dflt = if k' = k then v else dictGetD d k' dflt := by
  unfold dictGetD
  rw [dictLookup_dictSet]
  by_cases h : k' = k <;> simp [h]

theorem sumDeg_cons (k : String) (x : Int) (tl : List (String × Int)) :
    sumDeg ((k, x) :: tl) = x.toNat + sumDeg tl := by
  simp [sumDeg]

theorem sumDeg_dictSet_dec (d : List (String × Int)) (k : String) :
    sumDeg (dictSet d k (dictGetD d k 0 - 1)) + (if 0 < dictGetD d k 0 then 1 else 0)
      = sumDeg d := by
  induction d with
  | nil => simp [sumDeg, dictSet, dictGetD, dictLookup]
  | cons hd tl ih =>
      obtain ⟨k₀, v₀⟩ := hd
      by_cases hk : k₀ = k
      · subst hk
        have hget : dictGetD ((k₀, v₀) :: tl) k₀ 0 = v₀ := by
          simp [dictGetD, dictLookup]
        have hset : dictSet ((k₀, v₀) :: tl) k₀ (v₀ - 1) = (k₀, v₀ - 1) :: tl := by
          simp [dictSet]
        rw [hget, hset, sumDeg_cons, sumDeg_cons]
        by_cases hp : (0 : Int) < v₀
        · rw [if_pos hp]; omega
        · rw [if_neg hp]; omega
      · have hget : dictGetD ((k₀, v₀) :: tl) k 0 = dictGetD tl k 0 := by
          simp [dictGetD, dictLookup, Ne.symm hk]
        have hset : dictSet ((k₀, v₀) :: tl) k (dictGetD tl k 0 - 1)
            = (k₀, v₀) :: dictSet tl k (dictGetD tl k 0 - 1) := by
          simp [dictSet, hk]
        rw [hget, hset, sumDeg_cons, sumDeg_cons]
        omega

/-- What the neighbor-processing fold of one Kahn iteration does: in-degrees
drop by the entry count, the queue gains exactly the ids whose positive
in-degree reaches zero (each at most once), and the loop measure does not
grow. -/
theorem kahn_fold_spec :
    ∀ (ns : List String) (inDeg : List (String × Int)) (queue : List String),
      (∀ v, dictGetD (ns.foldl
          (fun (p : List (String × Int) × List String) neighbor =>
            let v := dictGetD p.1 neighbor 0 - 1
            (dictSet p.1 neighbor v, if v = 0 then p.2 ++ [neighbor] else p.2))
          (inDeg, queue)).1 v 0 = dictGetD inDeg v 0 - countOcc v ns) ∧
      (∀ v, v ∈ (ns.foldl
          (fun (p : List (String × Int) × List String) neighbor =>
            let v := dictGetD p.1 neighbor 0 - 1
            (dictSet p.1 neighbor v, if v = 0 then p.2 ++ [neighbor] else p.2))
          (inDeg, queue)).2 ↔
        v ∈ queue ∨ (0 < dictGetD inDeg v 0 ∧ dictGetD inDeg v 0 ≤ countOcc v ns)) ∧
      (queue.Nodup → (∀ v ∈ queue, dictGetD inDeg v 0 ≤ 0) →
        ((ns.foldl
          (fun (p : List (String × Int) × List String) neighbor =>
            let v := dictGetD p.1 neighbor 0 - 1
            (dictSet p.1 neighbor v, if v = 0 then p.2 ++ [neighbor] else p.2))
          (inDeg, queue)).2.Nodup ∧
         ∀ v ∈ (ns.foldl
          (fun (p : List (String × Int) × List String) neighbor =>
            let v := dictGetD p.1 neighbor 0 - 1
            (dictSet p.1 neighbor v, if v = 0 then p.2 ++ [neighbor] else p.2))
          (inDeg, queue)).2,
           dictGetD (ns.foldl
          (fun (p : List (String × Int) × List String) neighbor =>
            let v := dictGetD p.1 neighbor 0 - 1
            (dictSet p.1 neighbor v, if v = 0 then p.2 ++ [neighbor] else p.2))
          (inDeg, queue)).1 v 0 ≤ 0)) ∧
      ((ns.foldl
          (fun (p : List (String × Int) × List String) neighbor =>
            let v := dictGetD p.1 neighbor 0 - 1
            (dictSet p.1 neighbor v, if v = 0 then p.2 ++ [neighbor] else p.2))
          (inDeg, queue)).2.length + sumDeg (ns.foldl
          (fun (p : List (String × Int) × List String) neighbor =>
            let v := dictGetD p.1 neighbor 0 - 1
            (dictSet p.1 neighbor v, if v = 0 then p.2 ++ [neighbor] else p.2))
          (inDeg, queue)).1 ≤ queue.length + sumDeg inDeg) := by
  intro ns
  induction ns with
  | nil =>
      intro inDeg queue
      refine ⟨fun v => by simp [countOcc], fun v => ?_, fun h1 h2 => ⟨h1, h2⟩, le_refl _⟩
      simp only [List.foldl_nil, countOcc]
      constructor
      · exact fun h => Or.inl h
      · rintro (h | ⟨h1, h2⟩)
        · exact h
        · omega
  | cons nb rest ih =>
      intro inDeg queue
      simp only [List.foldl_cons]
      obtain ⟨ihdeg, ihmem, ihnodup, ihmeas⟩ :=
        ih (dictSet inDeg nb (dictGetD inDeg nb 0 - 1))
          (if dictGetD inDeg nb 0 - 1 = 0 then queue ++ [nb] else queue)
      refine ⟨?_, ?_, ?_, ?_⟩
      · intro v
        rw [ihdeg v, dictGetD_dictSet]
        by_cases hv : v = nb
        · subst hv
          simp only [if_pos rfl, countOcc, if_pos rfl, if_true]
          omega
        · simp only [if_neg hv, countOcc]
          have : ¬ nb = v := fun h => hv h.symm
          simp only [this, if_false]
          omega
      · intro v
        rw [ihmem v, dictGetD_dictSet]
        by_cases hv : v = nb
        · subst hv
          simp only [if_pos rfl]
          by_cases hz : dictGetD inDeg v 0 - 1 = 0
          · rw [if_pos hz]
            simp only [List.mem_append, List.mem_singleton, countOcc, if_pos rfl,
              if_true]
            constructor
            · rintro ((h | h) | ⟨h1, h2⟩)
              · exact Or.inl h
              · exact Or.inr ⟨by omega, by omega⟩
              · omega
            · rintro (h | ⟨h1, h2⟩)
              · exact Or.inl (Or.inl h)
              · exact Or.inl (Or.inr trivial)
          · rw [if_neg hz]
            simp only [countOcc, if_pos rfl, if_true]
            constructor
            · rintro (h | ⟨h1, h2⟩)
              · exact Or.inl h
              · exact Or.inr ⟨by omega, by omega⟩
            · rintro (h | ⟨h1, h2⟩)
              · exact Or.inl h
              · exact Or.inr ⟨by omega, by omega⟩
        · simp only [if_neg hv]
          have hnbv : ¬ nb = v := fun h => hv h.symm
          by_cases hz : dictGetD inDeg nb 0 - 1 = 0
          · rw [if_pos hz]
            simp only [List.mem_append, List.mem_singleton, countOcc, hnbv, if_false]
            constructor
            · rintro ((h | h) | ⟨h1, h2⟩)
              · exact Or.inl h
              · exact absurd h hv
              · exact Or.inr ⟨h1, by omega⟩
            · rintro (h | ⟨h1, h2⟩)
              · exact Or.inl (Or.inl h)
              · exact Or.inr ⟨h1, by omega⟩
          · rw [if_neg hz]
            simp only [countOcc, hnbv, if_false]
            constructor
            · rintro (h | ⟨h1, h2⟩)
              · exact Or.inl h
              · exact Or.inr ⟨h1, by omega⟩
            · rintro (h | ⟨h1, h2⟩)
              · exact Or.inl h
              · exact Or.inr ⟨h1, by omega⟩
      · intro hnd hle
        refine ihnodup ?_ ?_
        · by_cases hz : dictGetD inDeg nb 0 - 1 = 0
          · rw [if_pos hz]
            have hnbq : nb ∉ queue := fun hmem => by
              have := hle nb hmem
              omega
            simp [List.nodup_append, hnd, hnbq]
          · rw [if_neg hz]
            exact hnd
        · intro v hv
          rw [dictGetD_dictSet]
          by_cases hveq : v = nb
          · subst hveq
            simp only [if_pos rfl, if_true]
            by_cases hz : dictGetD inDeg v 0 - 1 = 0
            · omega
            · rw [if_neg hz] at hv
              have := hle v hv
              omega
          · simp only [if_neg hveq]
            refine hle v ?_
            by_cases hz : dictGetD inDeg nb 0 - 1 = 0
            · rw [if_pos hz] at hv
              rcases List.mem_append.mp hv with h | h
              · exact h
              · exact absurd (List.mem_singleton.mp h) hveq
            · rw [if_neg hz] at hv
              exact hv
      · refine le_trans ihmeas ?_
        have hsum := sumDeg_dictSet_dec inDeg nb
        by_cases hz : dictGetD inDeg nb 0 - 1 = 0
        · rw [if_pos (show (0 : Int) < dictGetD inDeg nb 0 by omega)] at hsum
          rw [if_pos hz]
          simp only [List.length_append, List.length_singleton]
          omega
        · rw [if_neg hz]
          by_cases hpos : (0 : Int) < dictGetD inDeg nb 0
          · rw [if_pos hpos] at hsum
            omega
          · rw [if_neg hpos] at hsum
            omega

theorem mem_keys_dictSet {κ β : Type} [DecidableEq κ] (d : List (κ × β)) (k u : κ) (v : β) :
    u ∈ (dictSet d k v).map Prod.fst ↔ u ∈ d.map Prod.fst ∨ u = k := by
  induction d with
  | nil => simp [dictSet]
  | cons hd tl ih =>
      obtain ⟨k₀, v₀⟩ := hd
      by_cases h : k₀ = k
      · subst h
        simp [dictSet]
        tauto
      · simp [dictSet, h, ih]
        tauto

theorem nodup_keys_dictSet {κ β : Type} [DecidableEq κ] (d : List (κ × β)) (k : κ) (v : β)
    (h : (d.map Prod.fst).Nodup) : ((dictSet d k v).map Prod.fst).Nodup := by
  induction d with
  | nil => simp [dictSet]
  | cons hd tl ih =>
      obtain ⟨k₀, v₀⟩ := hd
      simp only [List.map_cons, List.nodup_cons] at h
      by_cases hk : k₀ = k
      · subst hk
        simp only [dictSet, if_pos rfl, if_true, List.map_cons, List.nodup_cons]
        exact h
      · simp only [dictSet, if_neg hk, List.map_cons, List.nodup_cons]
        refine ⟨fun hmem => ?_, ih h.2⟩
        rcases (mem_keys_dictSet tl k k₀ v).mp hmem with hm | hm
        · exact h.1 hm
        · exact hk hm

theorem dictLookup_mem_keys {κ β : Type} [DecidableEq κ] (d : List (κ × β)) (k : κ) (v : β)
    (h : dictLookup d k = some v) : k ∈ d.map Prod.fst := by
  induction d with
  | nil => simp [dictLookup] at h
  | cons hd tl ih =>
      obtain ⟨k₀, v₀⟩ := hd
      by_cases hk : k = k₀
      · subst hk
        simp
      · rw [dictLookup, if_neg hk] at h
        simp only [List.map_cons, List.mem_cons]
        exact Or.inr (ih h)

/-- With a `Nodup`-keyed adjacency dict, prepending a fresh key adds to the
`countFrom` sum exactly that key's contribution (once, if the key is in `P`). -/
theorem countFrom_cons_key (v k : String) (l : List String)
    (tl : List (String × List String)) (hk : k ∉ tl.map Prod.fst) :
    ∀ P : List String, P.Nodup →
      countFrom P ((k, l) :: tl) v
        = countFrom P tl v + (if k ∈ P then countOcc v l else 0) := by
  intro P
  induction P with
  | nil => intro _; simp [countFrom]
  | cons u P' ih =>
      intro hnd
      have hnd' : P'.Nodup := hnd.of_cons
      have hrec : ∀ adj : List (String × List String),
          countFrom (u :: P') adj v
            = countOcc v (dictGetD adj u []) + countFrom P' adj v := by
        intro adj
        simp [countFrom]
      rw [hrec, hrec, ih hnd']
      by_cases hu : u = k
      · subst hu
        have h1 : dictGetD ((u, l) :: tl) u [] = l := by
          simp [dictGetD, dictLookup]
        have h2 : dictGetD tl u [] = [] := by
          unfold dictGetD
          rw [dictLookup_eq_none_of_not_mem_keys tl u hk]
          rfl
        have hu' : u ∉ P' := (List.nodup_cons.mp hnd).1
        rw [h1, h2, if_pos (List.mem_cons_self u P'), if_neg hu']
        simp only [countOcc]
        omega
      · have h1 : dictGetD ((k, l) :: tl) u [] = dictGetD tl u [] := by
          simp [dictGetD, dictLookup, hu]
        rw [h1]
        by_cases hkP : k ∈ P'
        · rw [if_pos hkP, if_pos (List.mem_cons_of_mem u hkP)]
          omega
        · rw [if_neg hkP, if_neg (fun hm => (List.mem_cons.mp hm).elim
            (fun he => hu he.symm) hkP)]
          omega

/-- If every adjacency list holding `v` is keyed by a member of `P`, the total
entry count into `v` is bounded by the `P`-sourced count (keys and `P`
duplicate-free). -/
theorem countIn_le_countFrom (v : String) :
    ∀ (adj : List (String × List String)) (P : List String), P.Nodup →
      (adj.map Prod.fst).Nodup →
      (∀ u lu, dictLookup adj u = some lu → 0 < countOcc v lu → u ∈ P) →
      countIn adj v ≤ countFrom P adj v := by
  intro adj
  induction adj with
  | nil => intro P _ _ _; simp [countIn, countFrom]
  | cons hd tl ih =>
      intro P hP hkeys hsrc
      obtain ⟨k, l⟩ := hd
      simp only [List.map_cons, List.nodup_cons] at hkeys
      have htl : countIn tl v ≤ countFrom P tl v := by
        refine ih P hP hkeys.2 ?_
        intro u lu hlu hpos
        refine hsrc u lu ?_ hpos
        have huk : ¬ u = k := by
          intro h
          subst h
          exact hkeys.1 (dictLookup_mem_keys tl u lu hlu)
        rw [dictLookup, if_neg huk]
        exact hlu
      rw [countFrom_cons_key v k l tl hkeys.1 P hP]
      have hIn : countIn ((k, l) :: tl) v = countOcc v l + countIn tl v := by
        simp [countIn]
      rw [hIn]
      by_cases hpos : 0 < countOcc v l
      · have hkP : k ∈ P := hsrc k l (by rw [dictLookup, if_pos rfl]) hpos
        rw [if_pos hkP]
        omega
      · have h0 : countOcc v l = 0 := by omega
        have hz : (if k ∈ P then countOcc v l else 0) = 0 := by
          rw [h0]
          simp
        rw [hz, h0]
        omega

/-- The three invariants of the Kahn table builder: the tracked in-degree of
every id equals the number of adjacency entries pointing at it, adjacency keys
are duplicate-free, and every adjacency entry `x → y` has `x` a node id with
`rank x < rank y` (the ranking witnessing acyclicity). -/
def KahnTInv (ids : List String) (rank : String → Nat)
    (p : List (String × Int) × List (String × List String)) : Prop :=
  (∀ v, dictGetD p.1 v 0 = (countIn p.2 v : Int)) ∧
  ((p.2.map Prod.fst).Nodup) ∧
  (∀ x y, y ∈ dictGetD p.2 x [] → x ∈ ids ∧ rank x < rank y)

theorem kahn_tables_step (ids : List String) (rank : String → Nat)
    (p : List (String × Int) × List (String × List String)) (u w : String)
    (hu : u ∈ ids) (hrw : rank u < rank w) (h : KahnTInv ids rank p) :
    KahnTInv ids rank
      (dictSet p.1 w (dictGetD p.1 w 0 + 1),
       dictSet p.2 u (dictGetD p.2 u [] ++ [w])) := by
  obtain ⟨h1, h2, h3⟩ := h
  refine ⟨?_, nodup_keys_dictSet _ _ _ h2, ?_⟩
  · intro v
    show dictGetD (dictSet p.1 w (dictGetD p.1 w 0 + 1)) v 0
      = (countIn (dictSet p.2 u (dictGetD p.2 u [] ++ [w])) v : Int)
    rw [dictGetD_dictSet, countIn_dictSet_append]
    by_cases hv : v = w
    · subst hv
      rw [if_pos rfl, if_pos rfl, h1 v]
      push_cast
      ring
    · rw [if_neg hv, if_neg (fun hh => hv hh.symm), h1 v]
      simp
  · intro x y hy
    rw [show (dictSet p.1 w (dictGetD p.1 w 0 + 1),
        dictSet p.2 u (dictGetD p.2 u [] ++ [w])).2
      = dictSet p.2 u (dictGetD p.2 u [] ++ [w]) from rfl, dictGetD_dictSet] at hy
    by_cases hx : x = u
    · subst hx
      rw [if_pos rfl] at hy
      rcases List.mem_append.mp hy with hm | hm
      · exact h3 x y hm
      · rw [List.mem_singleton.mp hm]
        exact ⟨hu, hrw⟩
    · rw [if_neg hx] at hy
      exact h3 x y hy

theorem kahn_tables_edges_fold (ids : List String) (rank : String → Nat) :
    ∀ (es : List SkillEdge) (p : List (String × Int) × List (String × List String)),
      (∀ e ∈ es, e.from_node ∈ ids ∧ rank e.from_node < rank e.to_node) →
      KahnTInv ids rank p →
      KahnTInv ids rank (es.foldl (fun p e =>
        (dictSet p.1 e.to_node (dictGetD p.1 e.to_node 0 + 1),
         dictSet p.2 e.from_node (dictGetD p.2 e.from_node [] ++ [e.to_node]))) p) := by
  intro es
  induction es with
  | nil => intro p _ h; exact h
  | cons e rest ih =>
      intro p hes h
      rw [List.foldl_cons]
      refine ih _ (fun e' he' => hes e' (List.mem_cons_of_mem e he')) ?_
      exact kahn_tables_step ids rank p e.from_node e.to_node
        (hes e (List.mem_cons_self e rest)).1 (hes e (List.mem_cons_self e rest)).2 h

theorem kahn_tables_deps_inner (ids : List String) (rank : String → Nat) (nid : String) :
    ∀ (deps : List String) (p : List (String × Int) × List (String × List String)),
      (∀ d ∈ deps, d ∈ ids ∧ rank d < rank nid) →
      KahnTInv ids rank p →
      KahnTInv ids rank (deps.foldl (fun q dep =>
        if dep ∈ dictGetD q.2 dep [] then q
        else (dictSet q.1 nid (dictGetD q.1 nid 0 + 1),
              dictSet q.2 dep (dictGetD q.2 dep [] ++ [nid]))) p) := by
  intro deps
  induction deps with
  | nil => intro p _ h; exact h
  | cons d rest ih =>
      intro p hds h
      rw [List.foldl_cons]
      by_cases hmem : d ∈ dictGetD p.2 d []
      · rw [if_pos hmem]
        exact ih _ (fun d' hd' => hds d' (List.mem_cons_of_mem d hd')) h
      · rw [if_neg hmem]
        exact ih _ (fun d' hd' => hds d' (List.mem_cons_of_mem d hd'))
          (kahn_tables_step ids rank p d nid (hds d (List.mem_cons_self d rest)).1
            (hds d (List.mem_cons_self d rest)).2 h)

theorem kahn_tables_deps_fold {α : Type} (ids : List String) (rank : String → Nat) :
    ∀ (ns : List (SkillNode α)) (p : List (String × Int) × List (String × List String)),
      (∀ n ∈ ns, ∀ d ∈ n.depends_on, d ∈ ids ∧ rank d < rank n.id) →
      KahnTInv ids rank p →
      KahnTInv ids rank (ns.foldl (fun p n =>
        n.depends_on.foldl (fun q dep =>
          if dep ∈ dictGetD q.2 dep [] then q
          else (dictSet q.1 n.id (dictGetD q.1 n.id 0 + 1),
                dictSet q.2 dep (dictGetD q.2 dep [] ++ [n.id]))) p) p) := by
  intro ns
  induction ns with
  | nil => intro p _ h; exact h
  | cons n rest ih =>
      intro p hns h
      rw [List.foldl_cons]
      refine ih _ (fun n' hn' => hns n' (List.mem_cons_of_mem n hn')) ?_
      exact kahn_tables_deps_inner ids rank n.id n.depends_on p
        (hns n (List.mem_cons_self n rest)) h

theorem init_inDeg_zero {α : Type} :
    ∀ (ns : List (SkillNode α)) (d : List (String × Int)),
      (∀ v, dictGetD d v 0 = 0) →
      ∀ v, dictGetD (ns.foldl (fun d n => dictSet d n.id 0) d) v 0 = 0 := by
  intro ns
  induction ns with
  | nil => intro d h v; exact h v
  | cons n rest ih =>
      intro d h v
      rw [List.foldl_cons]
      refine ih _ ?_ v
      intro u
      rw [dictGetD_dictSet]
      by_cases hu : u = n.id
      · rw [if_pos hu]
      · rw [if_neg hu]
        exact h u

theorem build_kahn_tables_eq {α : Type} (graph : SkillGraph α) :
    build_kahn_tables graph
      = graph.nodes.foldl (fun p n =>
          n.depends_on.foldl (fun q dep =>
            if dep ∈ dictGetD q.2 dep [] then q
            else (dictSet q.1 n.id (dictGetD q.1 n.id 0 + 1),
                  dictSet q.2 dep (dictGetD q.2 dep [] ++ [n.id]))) p)
          (graph.edges.foldl (fun p e =>
            (dictSet p.1 e.to_node (dictGetD p.1 e.to_node 0 + 1),
             dictSet p.2 e.from_node (dictGetD p.2 e.from_node [] ++ [e.to_node])))
            (graph.nodes.foldl (fun d n => dictSet d n.id 0) [], [])) := rfl

/-- The built tables satisfy all three invariants for any ranking compatible
with the graph's edges and dependencies. -/
theorem build_kahn_tables_inv {α : Type} (graph : SkillGraph α) (rank : String → Nat)
    (hwf : WFGraph graph)
    (hrank : ∀ e ∈ graph.edges, rank e.from_node < rank e.to_node)
    (hrankd : ∀ n ∈ graph.nodes, ∀ d ∈ n.depends_on, rank d < rank n.id) :
    KahnTInv (graph.nodes.map SkillNode.id) rank (build_kahn_tables graph) := by
  rw [build_kahn_tables_eq]
  refine kahn_tables_deps_fold _ rank graph.nodes _ ?_ ?_
  · intro n hn d hd
    exact ⟨hwf.2.1 n hn d hd, hrankd n hn d hd⟩
  · refine kahn_tables_edges_fold _ rank graph.edges _ ?_ ?_
    · intro e he
      exact ⟨(hwf.1 e he).1, hrank e he⟩
    · refine ⟨?_, ?_, ?_⟩
      · intro v
        show dictGetD (graph.nodes.foldl (fun d n => dictSet d n.id 0) []) v 0
          = (countIn ([] : List (String × List String)) v : Int)
        rw [init_inDeg_zero graph.nodes [] (fun _ => rfl) v]
        simp [countIn]
      · simp
      · intro x y hy
        simp [dictGetD, dictLookup] at hy

theorem dictLookup_foldl_nodes_untouched {α : Type} :
    ∀ (ns : List (SkillNode α)) (m : List (String × SkillNode α)) (k : String),
      k ∉ ns.map SkillNode.id →
      dictLookup (ns.foldl (fun m n => dictSet m n.id n) m) k = dictLookup m k := by
  intro ns
  induction ns with
  | nil => intro m k _; rfl
  | cons n rest ih =>
      intro m k hk
      simp only [List.map_cons, List.mem_cons, not_or] at hk
      rw [List.foldl_cons, ih _ k hk.2, dictLookup_dictSet, if_neg hk.1]

/-- `nodes_by_id = {n.id: n for n in graph.nodes}` resolves every node of a
duplicate-free graph to itself. -/
theorem nodes_by_id_lookup {α : Type} :
    ∀ (ns : List (SkillNode α)) (m : List (String × SkillNode α)) (n : SkillNode α),
      n ∈ ns → (ns.map SkillNode.id).Nodup →
      dictLookup (ns.foldl (fun m n => dictSet m n.id n) m) n.id = some n := by
  intro ns
  induction ns with
  | nil => intro m n h _; exact absurd h (List.not_mem_nil n)
  | cons hd rest ih =>
      intro m n hmem hnd
      simp only [List.map_cons, List.nodup_cons] at hnd
      rw [List.foldl_cons]
      rcases List.mem_cons.mp hmem with h | h
      · subst h
        rw [dictLookup_foldl_nodes_untouched rest _ n.id hnd.1, dictLookup_dictSet,
          if_pos rfl]
      · exact ih _ n h hnd.2

theorem kahn_loop_cons {α : Type} (nodes_by_id : List (String × SkillNode α))
    (fuel : Nat) (u : String) (rest : List String) (inDeg : List (String × Int))
    (adj : List (String × List String)) (result : List (SkillNode α)) :
    kahn_loop nodes_by_id (fuel + 1) (u :: rest) inDeg adj result
      = kahn_loop nodes_by_id fuel
          (((dictGetD adj u []).foldl
            (fun (p : List (String × Int) × List String) neighbor =>
              let v := dictGetD p.1 neighbor 0 - 1
              (dictSet p.1 neighbor v, if v = 0 then p.2 ++ [neighbor] else p.2))
            (inDeg, rest)).2)
          (((dictGetD adj u []).foldl
            (fun (p : List (String × Int) × List String) neighbor =>
              let v := dictGetD p.1 neighbor 0 - 1
              (dictSet p.1 neighbor v, if v = 0 then p.2 ++ [neighbor] else p.2))
            (inDeg, rest)).1) adj
          (match dictLookup nodes_by_id u with
            | some n => result ++ [n]
            | none => result) := rfl

/-- Completeness of the Kahn loop on ranked inputs: starting from any state
satisfying the ghost invariants (processed list `P`), with enough fuel, every
graph node's entry reaches the result. -/
theorem kahn_loop_complete {α : Type} (graph : SkillGraph α) (rank : String → Nat)
    (adj : List (String × List String)) (nodes_by_id : List (String × SkillNode α))
    (hadjkeys : (adj.map Prod.fst).Nodup)
    (hadjrank : ∀ x y, y ∈ dictGetD adj x [] →
      x ∈ graph.nodes.map SkillNode.id ∧ rank x < rank y)
    (hlookup : ∀ n ∈ graph.nodes, dictLookup nodes_by_id n.id = some n) :
    ∀ (fuel : Nat) (queue P : List String) (inDeg : List (String × Int))
      (result : List (SkillNode α)),
      kahn_measure queue inDeg < fuel →
      (∀ v, dictGetD inDeg v 0 = (countIn adj v : Int) - (countFrom P adj v : Int)) →
      (∀ v ∈ graph.nodes.map SkillNode.id, dictGetD inDeg v 0 ≤ 0 → v ∈ P ∨ v ∈ queue) →
      queue.Nodup → P.Nodup → (∀ v ∈ P, v ∉ queue) →
      (∀ v ∈ queue, dictGetD inDeg v 0 ≤ 0) →
      (∀ v ∈ P, dictGetD inDeg v 0 ≤ 0) →
      (∀ u ∈ P, ∀ n, dictLookup nodes_by_id u = some n → n ∈ result) →
      ∀ n ∈ graph.nodes, n ∈ kahn_loop nodes_by_id fuel queue inDeg adj result := by
  intro fuel
  induction fuel with
  | zero =>
      intro queue P inDeg result hfuel
      exact absurd hfuel (Nat.not_lt_zero _)
  | succ fuel ih =>
      intro queue P inDeg result hfuel hI1 hI2 hqnd hPnd hdisj hI4 hI5 hI6 n hn
      cases queue with
      | nil =>
          rw [kahn_loop]
          have hstrong : ∀ k v, rank v < k → v ∈ graph.nodes.map SkillNode.id →
              v ∈ P := by
            intro k
            induction k with
            | zero => intro v hv; exact absurd hv (Nat.not_lt_zero _)
            | succ k ihk =>
                intro v hvk hvids
                have hsrc : ∀ u lu, dictLookup adj u = some lu → 0 < countOcc v lu →
                    u ∈ P := by
                  intro u lu hlu hpos
                  have hvin : v ∈ dictGetD adj u [] := by
                    unfold dictGetD
                    rw [hlu]
                    exact (countOcc_pos_iff_mem v lu).mp hpos
                  obtain ⟨huids, hru⟩ := hadjrank u v hvin
                  exact ihk u (by omega) huids
                have hle := countIn_le_countFrom v adj P hPnd hadjkeys hsrc
                have hdeg := hI1 v
                have hz : dictGetD inDeg v 0 ≤ 0 := by omega
                rcases hI2 v hvids hz with h | h
                · exact h
                · exact absurd h (List.not_mem_nil v)
          have hnP : n.id ∈ P :=
            hstrong (rank n.id + 1) n.id (Nat.lt_succ_self _)
              (List.mem_map.mpr ⟨n, hn, rfl⟩)
          exact hI6 n.id hnP n (hlookup n hn)
      | cons u rest =>
          rw [kahn_loop_cons]
          obtain ⟨fdeg, fmem, fnodup, fmeas⟩ :=
            kahn_fold_spec (dictGetD adj u []) inDeg rest
          have hrestnd : rest.Nodup := hqnd.of_cons
          have hrestle : ∀ v ∈ rest, dictGetD inDeg v 0 ≤ 0 :=
            fun v hv => hI4 v (List.mem_cons_of_mem u hv)
          obtain ⟨fnd, fle⟩ := fnodup hrestnd hrestle
          have huq : dictGetD inDeg u 0 ≤ 0 := hI4 u (List.mem_cons_self u rest)
          have huP : u ∉ P := fun h => hdisj u h (List.mem_cons_self u rest)
          refine ih _ (P ++ [u]) _ _ ?_ ?_ ?_ fnd ?_ ?_ fle ?_ ?_ n hn
          · unfold kahn_measure at hfuel ⊢
            simp only [List.length_cons] at hfuel
            omega
          · intro v
            rw [fdeg v, hI1 v, countFrom_append]
            push_cast
            ring
          · intro v hvids hvz
            rw [fdeg v] at hvz
            by_cases hold : dictGetD inDeg v 0 ≤ 0
            · rcases hI2 v hvids hold with h | h
              · exact Or.inl (List.mem_append_left _ h)
              · rcases List.mem_cons.mp h with h | h
                · refine Or.inl (List.mem_append_right _ ?_)
                  rw [h]
                  exact List.mem_singleton_self u
                · exact Or.inr ((fmem v).mpr (Or.inl h))
            · push_neg at hold
              refine Or.inr ((fmem v).mpr (Or.inr ⟨hold, ?_⟩))
              omega
          · simp [List.nodup_append, hPnd, huP]
          · intro v hv hvF
            rcases (fmem v).mp hvF with hr | hpos
            · rcases List.mem_append.mp hv with hP | hu'
              · exact hdisj v hP (List.mem_cons_of_mem u hr)
              · rw [List.mem_singleton.mp hu'] at hr
                exact (List.nodup_cons.mp hqnd).1 hr
            · rcases List.mem_append.mp hv with hP | hu'
              · have := hI5 v hP
                omega
              · rw [List.mem_singleton.mp hu'] at hpos
                omega
          · intro v hv
            rw [fdeg v]
            rcases List.mem_append.mp hv with hP | hu'
            · have := hI5 v hP
              omega
            · rw [List.mem_singleton.mp hu']
              omega
          · intro w hw n' hlun'
            rcases List.mem_append.mp hw with hP | hw'
            · have hres := hI6 w hP n' hlun'
              cases hl : dictLookup nodes_by_id u with
              | none => simpa [hl] using hres
              | some m =>
                  simp only [hl]
                  exact List.mem_append_left _ hres
            · rw [List.mem_singleton.mp hw'] at hlun'
              rw [hlun']
              exact List.mem_append_right _ (List.mem_singleton_self n')

theorem topological_sort_eq {α : Type} (graph : SkillGraph α) :
    topological_sort graph
      = kahn_loop (graph.nodes.foldl (fun m n => dictSet m n.id n) [])
          (kahn_measure
            ((graph.nodes.filter
              (fun n => dictGetD (build_kahn_tables graph).1 n.id 0 = 0)).map (·.id))
            (build_kahn_tables graph).1 + 1)
          ((graph.nodes.filter
            (fun n => dictGetD (build_kahn_tables graph).1 n.id 0 = 0)).map (·.id))
          (build_kahn_tables graph).1 (build_kahn_tables graph).2 [] := rfl

/-- Completeness of `_topological_sort` on well-formed ranked (acyclic)
graphs: every node of the graph appears in the returned order. -/
theorem topological_sort_complete {α : Type} (graph : SkillGraph α) (hwf : WFGraph graph)
    (rank : String → Nat)
    (hrank : ∀ e ∈ graph.edges, rank e.from_node < rank e.to_node)
    (hrankd : ∀ n ∈ graph.nodes, ∀ d ∈ n.depends_on, rank d < rank n.id) :
    ∀ n ∈ graph.nodes, n ∈ topological_sort graph := by
  obtain ⟨hdeg, hkeys, hadjrank⟩ := build_kahn_tables_inv graph rank hwf hrank hrankd
  intro n hn
  rw [topological_sort_eq]
  refine kahn_loop_complete graph rank _ _ hkeys hadjrank
    (fun m hm => nodes_by_id_lookup graph.nodes [] m hm hwf.2.2)
    _ _ [] _ _ (Nat.lt_succ_self _) ?_ ?_ ?_ List.nodup_nil (by simp) ?_ (by simp)
    (by simp) n hn
  · intro v
    rw [hdeg v]
    simp [countFrom]
  · intro v hvids hvz
    refine Or.inr ?_
    obtain ⟨m, hm, hmid⟩ := List.mem_map.mp hvids
    refine List.mem_map.mpr ⟨m, List.mem_filter.mpr ⟨hm, ?_⟩, hmid⟩
    simp only [decide_eq_true_eq]
    rw [hmid]
    have := hdeg v
    omega
  · exact ((List.filter_sublist _).map _).nodup hwf.2.2
  · intro v hv
    obtain ⟨m, hm, hmid⟩ := List.mem_map.mp hv
    have hpred := (List.mem_filter.mp hm).2
    simp only [decide_eq_true_eq] at hpred
    rw [← hmid]
    exact le_of_eq hpred

/-- With the cancellation flag clear, the per-phase `if` of `_execute_phased`
never fires and the fold is plain phase execution. -/
theorem run_phased_false_eq {α : Type} (graph : SkillGraph α)
    (exec : SkillNode α → Nat → Except String Unit) (s : ExecState) :
    run_phased graph exec false s
      = (sortByKey graph.concurrency.phases).foldl
          (fun s ph => run_phase graph exec s ph.2) s := by
  unfold run_phased
  simp only [if_neg Bool.false_ne_true]

/-- **C4, counterexample.** `uncoveredPhasedGraph` is well-formed and its
(uncancelled) run reports `success`, yet its node `"a"` — listed in no phase —
is still `pending`, a non-terminal status, when `run_skill` returns. The
claim's "every node of the graph has a terminal status" fails exactly in the
phased mode the claim singles out. -/
theorem run_skill_terminal_counterexample :
    WFGraph uncoveredPhasedGraph ∧
    (Engine.run_skill uncoveredPhasedGraph okExec false).status = .success ∧
    unlistedNode ∈ uncoveredPhasedGraph.nodes ∧
    ¬ TermAt (Engine.run_skill uncoveredPhasedGraph okExec false).node_statuses
        unlistedNode.id := by
  refine ⟨by decide, by decide, by decide, ?_⟩
  intro h
  obtain ⟨v, hv, hterm⟩ := h
  have he : (Engine.run_skill uncoveredPhasedGraph okExec false).node_statuses
      = [("a", NodeStatus.pending)] := by decide
  rw [he] at hv
  simp [dictLookup, unlistedNode] at hv
  rw [← hv] at hterm
  exact absurd hterm (by decide)

/-- **C4, amended.** For a well-formed graph run without cancellation whose
reported status is `success`, every node of the graph holds a terminal status
when `run_skill` returns, provided: in `phased` mode every graph node is
listed in some phase (the uncovered-node case is the counterexample), and in
`sequential` mode the graph is acyclic — witnessed by a ranking that
strictly increases along every edge and dependency — so Kahn's sort visits
every node. `full_parallel` mode needs no side condition: its deadlock exit
marks all still-pending nodes `skipped`. -/
theorem run_skill_terminal_amended {α : Type} (graph : SkillGraph α)
    (exec : SkillNode α → Nat → Except String Unit)
    (hwf : WFGraph graph)
    (rank : String → Nat)
    (hrank : ∀ e ∈ graph.edges, rank e.from_node < rank e.to_node)
    (hrankd : ∀ n ∈ graph.nodes, ∀ d ∈ n.depends_on, rank d < rank n.id)
    (hphase : graph.concurrency.mode = .phased →
      ∀ n ∈ graph.nodes, ∃ ph ∈ graph.concurrency.phases, n.id ∈ ph.2)
    (hsucc : (Engine.run_skill graph exec false).status = .success) :
    ∀ n ∈ graph.nodes, TermAt (Engine.run_skill graph exec false).node_statuses n.id := by
  intro n hn
  revert hsucc
  unfold Engine.run_skill
  cases hmode : graph.concurrency.mode with
  | sequential =>
      dsimp only
      rcases hp : run_sequential graph exec false ⟨init_statuses graph.nodes, 0⟩
        with ⟨s, raised⟩
      cases raised
      · dsimp only
        intro _
        have hp' : run_nodes_sequential graph exec false (topological_sort graph)
            ⟨init_statuses graph.nodes, 0⟩ = (s, false) := hp
        have hsort := topological_sort_complete graph hwf rank hrank hrankd n hn
        have hterm := run_nodes_sequential_term graph exec (topological_sort graph)
          ⟨init_statuses graph.nodes, 0⟩ (by rw [hp']) n.id
          (Or.inr (List.mem_map.mpr ⟨n, hsort, rfl⟩))
        rw [hp'] at hterm
        exact hterm
      · dsimp only
        intro hsucc
        simp at hsucc
  | phased =>
      dsimp only
      intro _
      have hcov := hphase hmode n hn
      obtain ⟨ph, hph, hin⟩ := hcov
      have hterm := (run_phased_fold_term graph exec (sortByKey graph.concurrency.phases)
        ⟨init_statuses graph.nodes, 0⟩).2 n hn ⟨ph, (mem_sortByKey ph _).mpr hph, hin⟩
      rw [run_phased_false_eq]
      exact hterm
  | full_parallel =>
      dsimp only
      intro _
      exact run_full_parallel_term graph exec ⟨init_statuses graph.nodes, 0⟩ n hn

/-- Witness for C4's amended claim: a concrete well-formed one-node
sequential graph whose run succeeds and whose node ends terminal. -/
theorem run_skill_terminal_amended_witness :
    WFGraph soloSeqGraph ∧
    (Engine.run_skill soloSeqGraph okExec false).status = .success ∧
    TermAt (Engine.run_skill soloSeqGraph okExec false).node_statuses soloNode.id :=
  ⟨by decide, by decide,
   run_skill_terminal_amended soloSeqGraph okExec (by decide) (fun _ => 0)
     (by intro e he; simp [soloSeqGraph] at he)
     (by intro m hm d hd; simp [soloSeqGraph, soloNode] at hm; subst hm; simp [soloNode] at hd)
     (by intro h; simp [soloSeqGraph] at h)
     (by decide) soloNode (by simp [soloSeqGraph])⟩
